import Mathlib

/-!
A shallow embedding of `src/cpumask/cpumask_tool.c`, the cpumask calculator.

The C program keeps a fixed bit vector of 1024 core indices in sixteen 64-bit
words together with a cached highest index, fills it from either a core list
("0,2,4-7") or a hexadecimal mask ("0xff"), and prints both forms.

Conventions of the embedding:

* `int` values are `Int`; where the C code can overflow (`atoi`, the `i++` of
  the range loop) the result is wrapped to 32 bits explicitly (`wrap32`).
* `uint64_t` words are `Nat`; the only word operation is `|= 1ULL << b` with
  `b < 64`, which cannot leave the 64-bit range.
* a C string is the `List Char` of its characters before the terminating NUL.
* a function that takes `cpumask_t *` and mutates it returns the new mask.
* text written to standard output is returned as a `List Char`; diagnostics on
  standard error are not modelled.
-/

namespace Cpumask

/-! ## Data model -/

/-- The capacity, `#define MAX_CORES 1024`. -/
def MAX_CORES : Nat := 1024

/-- The struct `cpumask_t`: `uint64_t mask[MAX_CORES / 64]` and `int max_core`. -/
structure cpumask_t where
  mask : List Nat
  max_core : Int
deriving DecidableEq, Repr

/-- The function `cpumask_init`: `memset` to zero, then `max_core = -1`. -/
def cpumask_init : cpumask_t :=
  { mask := List.replicate (MAX_CORES / 64) 0, max_core := -1 }

/-- The function `cpumask_set_core`: reject an index outside `[0, MAX_CORES)`, otherwise set
its bit and raise `max_core` when the index is larger. On the accepted branch
`core` is non-negative, where the truncating `/` and `%` of C are those of `Nat`. -/
def cpumask_set_core (mask : cpumask_t) (core : Int) : cpumask_t :=
  if core < 0 ∨ core ≥ (MAX_CORES : Int) then mask
  else
    let word_idx := core.toNat / 64
    let bit_idx := core.toNat % 64
    { mask := mask.mask.set word_idx (mask.mask.getD word_idx 0 ||| (1 <<< bit_idx)),
      max_core := if core > mask.max_core then core else mask.max_core }

/-- The function `cpumask_is_set`: `0` outside `[0, MAX_CORES)`, otherwise whether the bit is set. -/
def cpumask_is_set (mask : cpumask_t) (core : Int) : Bool :=
  if core < 0 ∨ core ≥ (MAX_CORES : Int) then false
  else
    let word_idx := core.toNat / 64
    let bit_idx := core.toNat % 64
    (mask.mask.getD word_idx 0 &&& (1 <<< bit_idx)) != 0

/-! ## C library pieces used by the parsers and printers -/

/-- The library function `isspace` in the C locale. -/
def isspace (c : Char) : Bool :=
  c = ' ' || c = '\t' || c = '\n' || c = '\x0b' || c = '\x0c' || c = '\r'

/-- The library function `isdigit`. -/
def isdigit (c : Char) : Bool := decide ('0' ≤ c) && decide (c ≤ '9')

/-- Conversion of an integer to `int` by two's-complement wrapping. -/
def wrap32 (x : Int) : Int := (x + 2 ^ 31) % 2 ^ 32 - 2 ^ 31

/-- The digit loop of `strtol` in base 10: accumulate while digits last. -/
def strtol_digits : List Char → Nat → Nat
  | [], acc => acc
  | c :: cs, acc => if isdigit c then strtol_digits cs (acc * 10 + (c.toNat - '0'.toNat)) else acc

/-- Saturation of `strtol` to the range of a 64-bit `long`. -/
def clamp_long (x : Int) : Int :=
  if x > 2 ^ 63 - 1 then 2 ^ 63 - 1 else if x < -(2 ^ 63) then -(2 ^ 63) else x

/-- The call `strtol(s, NULL, 10)`: skip white space, an optional sign, then digits. -/
def strtol10 (s : List Char) : Int :=
  match s.dropWhile isspace with
  | '-' :: r => clamp_long (-(strtol_digits r 0 : Int))
  | '+' :: r => clamp_long (strtol_digits r 0)
  | r => clamp_long (strtol_digits r 0)

/-- The library function `atoi`, which is `(int) strtol(s, NULL, 10)`; a value that does not fit an
`int` (undefined in ISO C) is wrapped as the usual implementations do. -/
def atoi (s : List Char) : Int := wrap32 (strtol10 s)

/-- The tokens that successive `strtok(_, ",")` calls return: the maximal
non-empty pieces without a comma, left to right. `cur` is the piece being
read, reversed. The loop body of `parse_core_list` only writes inside the
current token, so the token sequence does not depend on it. -/
def strtok_from : List Char → List Char → List (List Char)
  | [], cur => if cur = [] then [] else [cur.reverse]
  | c :: cs, cur =>
    if c = ',' then
      if cur = [] then strtok_from cs [] else cur.reverse :: strtok_from cs []
    else strtok_from cs (c :: cur)

/-- All tokens of `strtok(input, ",")`, `strtok(NULL, ",")`, ... -/
def strtok_all (s : List Char) : List (List Char) := strtok_from s []

/-- The output of `printf("%d", i)`. -/
def fmt_d (i : Int) : List Char :=
  if i < 0 then '-' :: Nat.toDigits 10 i.natAbs else Nat.toDigits 10 i.toNat

/-- The output of `printf("%llx", v)` for a 64-bit value. -/
def fmt_llx (v : Nat) : List Char := Nat.toDigits 16 (v % 2 ^ 64)

/-- The output of `printf("%016llx", v)`: the same digits, padded with zeros to 16 columns. -/
def fmt_016llx (v : Nat) : List Char :=
  List.replicate (16 - (fmt_llx v).length) '0' ++ fmt_llx v

/-! ## The core-list parser -/

/-- The loop `for (int i = start; i <= end; i++) cpumask_set_core(mask, i)`.
The increment is that of a 32-bit `int`; `none` means the fuel ran out. -/
def range_loop : Nat → cpumask_t → Int → Int → Option cpumask_t
  | 0, _, _, _ => none
  | fuel + 1, mask, i, e =>
    if i ≤ e then range_loop fuel (cpumask_set_core mask i) (wrap32 (i + 1)) e
    else some mask

/-- The body of the `while (token != NULL)` loop for one token: the outcome is
`none` when a range loop ran out of fuel, otherwise the mask together with
`true` when the function returns `-1` at this token. -/
def parse_token (fuel : Nat) (token : List Char) (mask : cpumask_t) : Option (Bool × cpumask_t) :=
  let token := token.dropWhile isspace
  if '-' ∈ token then
    let start := atoi (token.takeWhile (· ≠ '-'))
    let e := atoi ((token.dropWhile (· ≠ '-')).drop 1)
    if start > e then some (true, mask)
    else (range_loop fuel mask start e).map (fun m => (false, m))
  else
    some (false, cpumask_set_core mask (atoi token))

/-- The `while` loop of `parse_core_list` over the remaining tokens. -/
def parse_tokens (fuel : Nat) : List (List Char) → cpumask_t → Option (Int × cpumask_t)
  | [], mask => some (0, mask)
  | token :: rest, mask =>
    match parse_token fuel token mask with
    | none => none
    | some (true, m) => some (-1, m)
    | some (false, m) => parse_tokens fuel rest m

/-- The function `parse_core_list`: the return value and the mask afterwards; `fuel` bounds
the iterations of each range loop. -/
def parse_core_list (fuel : Nat) (core_list : List Char) (mask : cpumask_t) :
    Option (Int × cpumask_t) :=
  parse_tokens fuel (strtok_all core_list) mask

/-! ## The hexadecimal parser -/

/-- The value of a hexadecimal digit character, as the `if` chain computes it. -/
def hex_nibble (c : Char) : Option Nat :=
  if '0' ≤ c ∧ c ≤ '9' then some (c.toNat - '0'.toNat)
  else if 'a' ≤ c ∧ c ≤ 'f' then some (c.toNat - 'a'.toNat + 10)
  else if 'A' ≤ c ∧ c ≤ 'F' then some (c.toNat - 'A'.toNat + 10)
  else none

/-- The loop `for (j = 0; j < 4 && bit_pos + j < MAX_CORES; j++)`; the first
argument counts the iterations that `j < 4` still allows. -/
def nibble_loop (nibble bit_pos : Nat) : Nat → Nat → cpumask_t → cpumask_t
  | 0, _, mask => mask
  | k + 1, j, mask =>
    if bit_pos + j < MAX_CORES then
      nibble_loop nibble bit_pos k (j + 1)
        (if nibble &&& (1 <<< j) ≠ 0 then cpumask_set_core mask ((bit_pos + j : Nat) : Int) else mask)
    else mask

/-- The loop `for (i = len - 1, bit_pos = 0; i >= 0 && bit_pos < MAX_CORES; i--, bit_pos += 4)`
over the characters from the last one backwards (`rev` is what is left of the
reversed string). -/
def hex_loop : List Char → Nat → cpumask_t → Int × cpumask_t
  | [], _, mask => (0, mask)
  | c :: rev, bit_pos, mask =>
    if bit_pos < MAX_CORES then
      match hex_nibble c with
      | none => (-1, mask)
      | some nibble => hex_loop rev (bit_pos + 4) (nibble_loop nibble bit_pos 4 0 mask)
    else (0, mask)

/-- The prefix test `strncmp(str, "0x", 2) == 0 || strncmp(str, "0X", 2) == 0`
and the `str += 2` it guards. -/
def skip_0x : List Char → List Char
  | '0' :: 'x' :: r => r
  | '0' :: 'X' :: r => r
  | s => s

/-- The function `parse_hex_mask`: the return value and the mask afterwards. -/
def parse_hex_mask (hex_str : List Char) (mask : cpumask_t) : Int × cpumask_t :=
  let str := skip_0x hex_str
  if str.length = 0 then (-1, mask)
  else hex_loop str.reverse 0 mask

/-! ## The printers and the counter -/

/-- One iteration of the word loop of `print_hex_mask`; the state is the flag
`printed` and the text written so far. -/
def print_hex_step (mask : cpumask_t) (max_word : Nat) (st : Bool × List Char) (word : Nat) :
    Bool × List Char :=
  if word = max_word then
    let val := mask.mask.getD word 0
    if val = 0 ∧ word > 0 then st
    else (true, st.2 ++ fmt_llx val)
  else if st.1 then (st.1, st.2 ++ fmt_016llx (mask.mask.getD word 0))
  else st

/-- The function `print_hex_mask`: everything it writes, the final newline included. -/
def print_hex_mask (mask : cpumask_t) : List Char :=
  if mask.max_core < 0 then ['0', 'x', '0', '\n']
  else
    let max_word := mask.max_core.toNat / 64
    let st := (List.range (max_word + 1)).reverse.foldl (print_hex_step mask max_word)
      (false, ['0', 'x'])
    (if st.1 then st.2 else st.2 ++ ['0']) ++ ['\n']

/-- The loop state of `print_core_list`. -/
structure list_state where
  first : Bool
  range_start : Int
  range_end : Int
  out : List Char
deriving DecidableEq, Repr

/-- The text of one finished run, as the three `printf` branches write it. -/
def fmt_run (range_start range_end : Int) : List Char :=
  if range_start = range_end then fmt_d range_start
  else if range_end = range_start + 1 then fmt_d range_start ++ [','] ++ fmt_d range_end
  else fmt_d range_start ++ ['-'] ++ fmt_d range_end

/-- One iteration of the loop of `print_core_list` at index `i`. -/
def print_core_step (mask : cpumask_t) (st : list_state) (i : Nat) : list_state :=
  let is_set := if (i : Int) ≤ mask.max_core then cpumask_is_set mask i else false
  if is_set then
    if st.range_start = -1 then { st with range_start := i, range_end := i }
    else { st with range_end := i }
  else
    if st.range_start ≠ -1 then
      { first := false, range_start := -1, range_end := st.range_end,
        out := st.out ++ (if st.first then [] else [',']) ++ fmt_run st.range_start st.range_end }
    else st

/-- The loop `for (i = 0; i <= max_core + 1; i++)` of `print_core_list`. -/
def print_core_loop (mask : cpumask_t) : list_state :=
  (List.range (mask.max_core + 2).toNat).foldl (print_core_step mask)
    { first := true, range_start := -1, range_end := -1, out := [] }

/-- The function `print_core_list`: everything it writes, the final newline included. -/
def print_core_list (mask : cpumask_t) : List Char :=
  let st := print_core_loop mask
  (if st.first then st.out ++ "(no cores selected)".toList else st.out) ++ ['\n']

/-- The function `count_cores`: the loop `for (i = 0; i <= max_core; i++)` counting set bits. -/
def count_cores (mask : cpumask_t) : Int :=
  (List.range (mask.max_core + 1).toNat).foldl
    (fun (count : Int) (i : Nat) => if cpumask_is_set mask (i : Int) then count + 1 else count) 0

/-- The masks the program can hold: `cpumask_init` followed by any finite
sequence of `cpumask_set_core` calls. -/
def run_set_core (cores : List Int) : cpumask_t :=
  cores.foldl cpumask_set_core cpumask_init

/-! ## Predicates used in the statements -/

/-- The storage shape of the C struct: sixteen words, each a 64-bit value. -/
def storage_ok (s : cpumask_t) : Prop :=
  s.mask.length = 16 ∧ ∀ w ∈ s.mask, w < 2 ^ 64

/-- The cached maximum agrees with the bits: it is `-1` or a set index, and no
index above it is set. -/
def max_ok (s : cpumask_t) : Prop :=
  (s.max_core = -1 ∨ cpumask_is_set s s.max_core = true) ∧
    ∀ c : Int, s.max_core < c → cpumask_is_set s c = false


/-- The hexadecimal digit characters, in either case. -/
def is_hex_digit (c : Char) : Bool := "0123456789abcdefABCDEF".toList.contains c

/-- The value of a hexadecimal digit: its place among `0123456789abcdef` once
lower-cased. -/
def hex_digit_value (c : Char) : Nat := "0123456789abcdef".toList.indexOf c.toLower

/-- The number a string of hexadecimal digits denotes, most significant digit first. -/
def hex_value (ds : List Char) : Nat :=
  ds.foldl (fun acc c => 16 * acc + hex_digit_value c) 0

/-- The number held by a list of 64-bit words, least significant word first. -/
def words_value : List Nat → Nat
  | [] => 0
  | w :: ws => w + 2 ^ 64 * words_value ws

/-- The digits of a mask, most significant first: the word holding `max_core`
as `%llx`, then every lower word as `%016llx`. -/
def hex_words_text (s : cpumask_t) : List Char :=
  fmt_llx (s.mask.getD (s.max_core.toNat / 64) 0) ++
    (List.range (s.max_core.toNat / 64)).reverse.flatMap (fun w => fmt_016llx (s.mask.getD w 0))

/-- The decimal digit characters. -/
def is_dec_digit (c : Char) : Bool := "0123456789".toList.contains c

/-- The value of a decimal digit: its place among `0123456789`. -/
def dec_digit_value (c : Char) : Nat := "0123456789".toList.indexOf c

/-- The number a string of decimal digits denotes. -/
def dec_value (ds : List Char) : Nat :=
  ds.foldl (fun acc c => 10 * acc + dec_digit_value c) 0

/-- An unsigned decimal integer of a core list: one or more digits, with a
value below `2 ^ 31 - 1`. -/
def is_dec_number (ds : List Char) : Prop :=
  ds ≠ [] ∧ (∀ c ∈ ds, is_dec_digit c = true) ∧ dec_value ds < 2 ^ 31 - 1

/-- A token of a core list: leading white space, the digits of a number, and
for a range the digits of the upper end. -/
structure core_token where
  ws : List Char
  lo : List Char
  hi : Option (List Char)

/-- The text of a token: `n` or `a-b` after the white space. -/
def core_token.text (t : core_token) : List Char :=
  t.ws ++ t.lo ++ (match t.hi with | none => [] | some h => '-' :: h)

/-- A well-formed token: white space, then an unsigned decimal integer `n` or a
range `a-b` of two such integers with `a ≤ b`. -/
def core_token.valid (t : core_token) : Prop :=
  (∀ c ∈ t.ws, isspace c = true) ∧ is_dec_number t.lo ∧
    (match t.hi with | none => True | some h => is_dec_number h ∧ dec_value t.lo ≤ dec_value h)

/-- The indices a token names: the single `n`, or the closed interval `[a, b]`. -/
def core_token.covers (t : core_token) (c : Int) : Prop :=
  match t.hi with
  | none => c = (dec_value t.lo : Int)
  | some h => (dec_value t.lo : Int) ≤ c ∧ c ≤ (dec_value h : Int)

/-- The text of a run from `r.1` to `r.2`: `a`, `a,b` for two members, `a-b`
for three or more, the numbers in decimal. -/
def run_text (r : Nat × Nat) : List Char :=
  if r.2 = r.1 then (Nat.repr r.1).toList
  else if r.2 = r.1 + 1 then (Nat.repr r.1).toList ++ [','] ++ (Nat.repr r.2).toList
  else (Nat.repr r.1).toList ++ ['-'] ++ (Nat.repr r.2).toList

/-- A run of a mask: a non-empty interval of set indices that cannot be
extended on either side. -/
def is_maximal_run (s : cpumask_t) (r : Nat × Nat) : Prop :=
  r.1 ≤ r.2 ∧ (∀ j : Nat, r.1 ≤ j → j ≤ r.2 → cpumask_is_set s (j : Int) = true) ∧
    cpumask_is_set s ((r.1 : Int) - 1) = false ∧ cpumask_is_set s ((r.2 : Int) + 1) = false

/-- The list of the maximal runs of a mask in increasing order: every entry is
a maximal run, each lies before the next, and every set index is in one. -/
def is_run_list (s : cpumask_t) (runs : List (Nat × Nat)) : Prop :=
  (∀ r ∈ runs, is_maximal_run s r) ∧
    runs.Pairwise (fun r1 r2 => r1.2 < r2.1) ∧
    ∀ j : Nat, cpumask_is_set s (j : Int) = true → ∃ r ∈ runs, r.1 ≤ j ∧ j ≤ r.2

/-- The state of the loop of `print_core_list` before index `i`: `done` are the
runs already written, `st.range_start` is `-1` or the start of the run that
reaches index `i - 1`. -/
structure print_inv (s : cpumask_t) (i : Nat) (st : list_state) (done : List (Nat × Nat)) :
    Prop where
  out_eq : st.out = List.intercalate [','] (done.map run_text)
  first_eq : (st.first = true ↔ done = [])
  runs_ok : ∀ r ∈ done, is_maximal_run s r ∧ r.2 + 1 < i
  sorted : done.Pairwise (fun r1 r2 => r1.2 < r2.1)
  cur_ok :
    (st.range_start = -1 ∧ cpumask_is_set s ((i : Int) - 1) = false ∧
      ∀ j : Nat, j < i → cpumask_is_set s (j : Int) = true → ∃ r ∈ done, r.1 ≤ j ∧ j ≤ r.2) ∨
    (∃ a : Nat, st.range_start = (a : Int) ∧ st.range_end = (i : Int) - 1 ∧ a < i ∧
      (∀ j : Nat, a ≤ j → j < i → cpumask_is_set s (j : Int) = true) ∧
      cpumask_is_set s ((a : Int) - 1) = false ∧ (∀ r ∈ done, r.2 + 1 < a) ∧
      ∀ j : Nat, j < a → cpumask_is_set s (j : Int) = true → ∃ r ∈ done, r.1 ≤ j ∧ j ≤ r.2)

/-- The tokens that the text of a run consists of: one number, two numbers, or
one range. -/
def run_tokens (r : Nat × Nat) : List core_token :=
  if r.2 = r.1 then [⟨[], (Nat.repr r.1).toList, none⟩]
  else if r.2 = r.1 + 1 then
    [⟨[], (Nat.repr r.1).toList, none⟩, ⟨[], (Nat.repr r.2).toList, none⟩]
  else [⟨[], (Nat.repr r.1).toList, some (Nat.repr r.2).toList⟩]

/-! ## The command line -/

/-- The function `print_usage`: the text it writes to standard output. -/
def print_usage (program_name : List Char) : List Char :=
  "Usage: ".toList ++ program_name ++ " [OPTIONS]\n".toList ++
  "CPU Mask Calculator Tool - Convert between core lists and hex masks\n\n".toList ++
  "Options:\n".toList ++
  "  -c, --cores <list>     Specify cores as comma-separated list or ranges\n".toList ++
  "                         Examples: '0,2,4-7', '0-3,8,10-15'\n".toList ++
  "  -m, --mask <hex>       Specify cpumask as hexadecimal value\n".toList ++
  "                         Examples: '0xff', 'ff', '0x123abc'\n".toList ++
  "  -h, --help             Show this help message\n".toList ++
  "  -v, --verbose          Show detailed information\n\n".toList ++
  "Examples:\n".toList ++
  "  ".toList ++ program_name ++ " -c '0,2,4-7'        # Convert core list to mask\n".toList ++
  "  ".toList ++ program_name ++ " -m 0xff             # Convert mask to core list\n".toList ++
  "  ".toList ++ program_name ++ " -c '0-3' -v         # Verbose output\n".toList ++
  "\nOutput:\n".toList ++
  "  - Hex mask (for SPDK --cpumask parameter)\n".toList ++
  "  - Core list (human readable)\n".toList ++
  "  - Core count\n".toList

/-- The locals of `main` that the argument loop fills. -/
structure cli_args where
  core_list : Option (List Char)
  hex_mask : Option (List Char)
  verbose : Bool
  show_help : Bool
deriving DecidableEq, Repr

/-- The argument loop of `main` over `argv[1..]`: the locals after the loop, or
the text written to standard output when the loop returns `1` (a missing
option argument writes nothing there, an unknown option the usage text). -/
def parse_args (argv0 : List Char) : List (List Char) → cli_args → Except (List Char) cli_args
  | [], st => .ok st
  | [a], st =>
    if a = "-c".toList ∨ a = "--cores".toList then .error []
    else if a = "-m".toList ∨ a = "--mask".toList then .error []
    else if a = "-v".toList ∨ a = "--verbose".toList then .ok { st with verbose := true }
    else if a = "-h".toList ∨ a = "--help".toList then .ok { st with show_help := true }
    else .error (print_usage argv0)
  | a :: v :: rest, st =>
    if a = "-c".toList ∨ a = "--cores".toList then
      parse_args argv0 rest { st with core_list := some v }
    else if a = "-m".toList ∨ a = "--mask".toList then
      parse_args argv0 rest { st with hex_mask := some v }
    else if a = "-v".toList ∨ a = "--verbose".toList then
      parse_args argv0 (v :: rest) { st with verbose := true }
    else if a = "-h".toList ∨ a = "--help".toList then
      parse_args argv0 (v :: rest) { st with show_help := true }
    else .error (print_usage argv0)

/-- What a run of `main` leaves behind: the exit code, the text on standard
output, and how many times one of the two parsers was called. -/
structure main_result where
  exit_code : Int
  stdout : List Char
  parser_calls : Nat
deriving DecidableEq, Repr

/-- The output section of `main` for a parsed mask. -/
def print_results (mask : cpumask_t) (verbose : Bool) : List Char :=
  (if verbose then "\nResults:\n--------\n".toList else []) ++
  "Hex mask:   ".toList ++ print_hex_mask mask ++
  "Core list:  ".toList ++ print_core_list mask ++
  "Core count: ".toList ++ fmt_d (count_cores mask) ++ ['\n'] ++
  (if verbose then
    "\nUsage with SPDK:\n".toList ++ "  --cpumask ".toList ++ print_hex_mask mask ++
    "\nUsage with taskset:\n".toList ++ "  taskset -c ".toList ++ print_core_list mask
  else [])

/-- The function `main` on `argv[0]` and `argv[1..]`; `none` means a range loop
of `parse_core_list` ran out of fuel. -/
def main (fuel : Nat) (argv0 : List Char) (args : List (List Char)) : Option main_result :=
  match parse_args argv0 args
      { core_list := none, hex_mask := none, verbose := false, show_help := false } with
  | .error out => some { exit_code := 1, stdout := out, parser_calls := 0 }
  | .ok st =>
    if st.show_help = true ∨ (st.core_list = none ∧ st.hex_mask = none) then
      some { exit_code := 0, stdout := print_usage argv0, parser_calls := 0 }
    else if st.core_list ≠ none ∧ st.hex_mask ≠ none then
      some { exit_code := 1, stdout := [], parser_calls := 0 }
    else
      match st.core_list with
      | some core_list =>
        match parse_core_list fuel core_list cpumask_init with
        | none => none
        | some (r, mask) =>
          if r ≠ 0 then some { exit_code := 1, stdout := [], parser_calls := 1 }
          else some
            { exit_code := 0,
              stdout := (if st.verbose then
                  "Parsed core list: ".toList ++ core_list ++ ['\n'] else []) ++
                print_results mask st.verbose,
              parser_calls := 1 }
      | none =>
        match st.hex_mask with
        | some hex_mask =>
          if (parse_hex_mask hex_mask cpumask_init).1 ≠ 0 then
            some { exit_code := 1, stdout := [], parser_calls := 1 }
          else some
            { exit_code := 0,
              stdout := (if st.verbose then
                  "Parsed hex mask: ".toList ++ hex_mask ++ ['\n'] else []) ++
                print_results (parse_hex_mask hex_mask cpumask_init).2 st.verbose,
              parser_calls := 1 }
        | none =>
          some { exit_code := 0, stdout := print_results cpumask_init st.verbose,
                 parser_calls := 0 }

/-- An item of a command line without a help flag: a cores option with its
argument, a mask option with its argument, a verbose flag, or any other word. -/
inductive cli_item where
  | cores (flag arg : List Char)
  | mask (flag arg : List Char)
  | verbose (flag : List Char)
  | other (word : List Char)

/-- The words of `argv` an item consists of. -/
def cli_item.words : cli_item → List (List Char)
  | .cores flag arg => [flag, arg]
  | .mask flag arg => [flag, arg]
  | .verbose flag => [flag]
  | .other word => [word]

/-- The option names that `main` knows. -/
def known_flags : List (List Char) :=
  ["-c".toList, "--cores".toList, "-m".toList, "--mask".toList, "-v".toList,
    "--verbose".toList, "-h".toList, "--help".toList]

/-- An item is well formed: its flag is one of the two spellings of its option;
any other word is none of the known option names. -/
def cli_item.valid : cli_item → Prop
  | .cores flag _ => flag = "-c".toList ∨ flag = "--cores".toList
  | .mask flag _ => flag = "-m".toList ∨ flag = "--mask".toList
  | .verbose flag => flag = "-v".toList ∨ flag = "--verbose".toList
  | .other word => word ∉ known_flags

/-- The item is a cores option. -/
def cli_item.is_cores : cli_item → Bool
  | .cores _ _ => true
  | _ => false

/-- The item is a mask option. -/
def cli_item.is_mask : cli_item → Bool
  | .mask _ _ => true
  | _ => false

/-! ## Bits, `cpumask_set_core` and `cpumask_is_set` -/

theorem and_one_shiftLeft_ne (w b : Nat) : ((w &&& (1 <<< b)) != 0) = w.testBit b := by
  rw [Nat.one_shiftLeft, Nat.and_two_pow]
  cases h : w.testBit b <;> simp

theorem is_set_eq (s : cpumask_t) (c : Int) :
    cpumask_is_set s c =
      (decide (0 ≤ c ∧ c < 1024) && (s.mask.getD (c.toNat / 64) 0).testBit (c.toNat % 64)) := by
  unfold cpumask_is_set
  simp only [and_one_shiftLeft_ne, MAX_CORES]
  by_cases h : c < 0 ∨ c ≥ ((1024 : Nat) : Int)
  · rw [if_pos h]
    have : ¬ (0 ≤ c ∧ c < 1024) := by omega
    simp [this]
  · rw [if_neg h]
    have : (0 ≤ c ∧ c < 1024) := by omega
    simp [this]

theorem getD_set_word (l : List Nat) (k j v : Nat) (hk : k < l.length) :
    (l.set k v).getD j 0 = if j = k then v else l.getD j 0 := by
  simp only [List.getD_eq_getElem?_getD, List.getElem?_set]
  by_cases h : k = j
  · subst h; simp [hk]
  · simp [h, Ne.symm h]

theorem set_core_reject (s : cpumask_t) (c : Int) (h : c < 0 ∨ 1024 ≤ c) :
    cpumask_set_core s c = s := by
  unfold cpumask_set_core
  rw [if_pos]
  simpa [MAX_CORES] using h

theorem set_core_accept (s : cpumask_t) (c : Int) (h0 : 0 ≤ c) (h1 : c < 1024) :
    cpumask_set_core s c =
      { mask := s.mask.set (c.toNat / 64) (s.mask.getD (c.toNat / 64) 0 ||| 2 ^ (c.toNat % 64)),
        max_core := max s.max_core c } := by
  unfold cpumask_set_core
  rw [if_neg (by simp [MAX_CORES]; omega)]
  simp only [Nat.one_shiftLeft]
  congr 1
  by_cases h : c > s.max_core
  · rw [if_pos h, max_eq_right (le_of_lt h)]
  · rw [if_neg h, max_eq_left (not_lt.mp h)]

theorem set_core_length (s : cpumask_t) (c : Int) :
    (cpumask_set_core s c).mask.length = s.mask.length := by
  unfold cpumask_set_core
  split <;> simp

theorem idx_split (a b : Nat) : a = b ↔ a / 64 = b / 64 ∧ a % 64 = b % 64 := by omega

theorem is_set_set_core (s : cpumask_t) (h : s.mask.length = 16) (c i : Int) :
    cpumask_is_set (cpumask_set_core s c) i =
      (decide (i = c ∧ 0 ≤ c ∧ c < 1024) || cpumask_is_set s i) := by
  by_cases hc : c < 0 ∨ 1024 ≤ c
  · rw [set_core_reject s c hc]
    have : ¬ (i = c ∧ 0 ≤ c ∧ c < 1024) := by omega
    simp [this]
  · have h0 : 0 ≤ c := by omega
    have h1 : c < 1024 := by omega
    rw [set_core_accept s c h0 h1, is_set_eq, is_set_eq]
    by_cases hi : 0 ≤ i ∧ i < 1024
    · simp only [hi, and_self, decide_True, Bool.true_and, h0, h1, and_true]
      rw [getD_set_word _ _ _ _ (by omega)]
      by_cases hw : i.toNat / 64 = c.toNat / 64
      · rw [if_pos hw, Nat.testBit_or, Nat.testBit_two_pow, hw]
        by_cases hb : c.toNat % 64 = i.toNat % 64
        · have : i = c := by omega
          simp [this]
        · have : ¬ i = c := by intro e; subst e; exact hb rfl
          simp [hb, this]
      · rw [if_neg hw]
        have : ¬ i = c := by intro e; subst e; exact hw rfl
        simp [this]
    · have : ¬ (i = c ∧ 0 ≤ c ∧ c < 1024) := by omega
      simp [hi, this]


theorem storage_ok_init : storage_ok cpumask_init := by
  refine ⟨by decide, ?_⟩
  intro w hw
  have : w = 0 := by
    simp only [cpumask_init] at hw
    exact (List.mem_replicate.mp hw).2
  subst this; decide

theorem storage_ok_set_core (s : cpumask_t) (c : Int) (h : storage_ok s) :
    storage_ok (cpumask_set_core s c) := by
  refine ⟨by rw [set_core_length]; exact h.1, ?_⟩
  by_cases hc : c < 0 ∨ 1024 ≤ c
  · rw [set_core_reject s c hc]; exact h.2
  · rw [set_core_accept s c (by omega) (by omega)]
    intro w hw
    rcases List.mem_or_eq_of_mem_set hw with hw | hw
    · exact h.2 w hw
    · subst hw
      apply Nat.or_lt_two_pow
      · rw [List.getD_eq_getElem?_getD]
        cases hg : s.mask[c.toNat / 64]? with
        | none => simp
        | some v => simpa using h.2 v (List.getElem?_mem hg)
      · exact Nat.pow_lt_pow_right (by decide) (Nat.mod_lt _ (by decide))

theorem is_set_init (c : Int) : cpumask_is_set cpumask_init c = false := by
  rw [is_set_eq]
  by_cases hc : 0 ≤ c ∧ c < 1024
  · have : cpumask_init.mask.getD (c.toNat / 64) 0 = 0 := by
      simp only [cpumask_init, List.getD_eq_getElem?_getD]
      cases hg : (List.replicate (MAX_CORES / 64) 0)[c.toNat / 64]? with
      | none => rfl
      | some v => exact (List.mem_replicate.mp (List.getElem?_mem hg)).2
    rw [this]; simp
  · simp [hc]

theorem is_set_range (s : cpumask_t) (c : Int) (h : cpumask_is_set s c = true) :
    0 ≤ c ∧ c < 1024 := by
  rw [is_set_eq] at h
  simp only [Bool.and_eq_true, decide_eq_true_eq] at h
  exact h.1

theorem max_ok_init : max_ok cpumask_init :=
  ⟨Or.inl rfl, fun c _ => is_set_init c⟩

theorem max_core_set_core (s : cpumask_t) (c : Int) :
    (cpumask_set_core s c).max_core = if 0 ≤ c ∧ c < 1024 then max s.max_core c else s.max_core := by
  by_cases hc : c < 0 ∨ 1024 ≤ c
  · rw [set_core_reject s c hc, if_neg (by omega)]
  · rw [set_core_accept s c (by omega) (by omega), if_pos (by omega)]

theorem max_ok_set_core (s : cpumask_t) (c : Int) (hs : s.mask.length = 16) (h : max_ok s) :
    max_ok (cpumask_set_core s c) := by
  by_cases hc : c < 0 ∨ 1024 ≤ c
  · rw [set_core_reject s c hc]; exact h
  · have h0 : 0 ≤ c := by omega
    have h1 : c < 1024 := by omega
    refine ⟨Or.inr ?_, ?_⟩
    · rw [is_set_set_core s hs, max_core_set_core, if_pos ⟨h0, h1⟩]
      rcases le_total s.max_core c with hle | hle
      · rw [max_eq_right hle]; simp [h0, h1]
      · rw [max_eq_left hle]
        rcases h.1 with hm | hm
        · have : s.max_core = c := by omega
          rw [this]; simp [h0, h1]
        · simp [hm]
    · intro i hi
      rw [max_core_set_core, if_pos ⟨h0, h1⟩] at hi
      rw [is_set_set_core s hs, h.2 i (lt_of_le_of_lt (le_max_left _ _) hi)]
      have : ¬ (i = c ∧ 0 ≤ c ∧ c < 1024) := by
        rintro ⟨e, -⟩; subst e; exact absurd hi (not_lt.mpr (le_max_right _ _))
      simp [this]

theorem foldl_set_core_inv (cores : List Int) (s : cpumask_t)
    (h : storage_ok s ∧ max_ok s) :
    storage_ok (cores.foldl cpumask_set_core s) ∧ max_ok (cores.foldl cpumask_set_core s) := by
  induction cores generalizing s with
  | nil => exact h
  | cons c cs ih =>
    exact ih _ ⟨storage_ok_set_core s c h.1, max_ok_set_core s c h.1.1 h.2⟩

theorem reachable_inv (cores : List Int) :
    storage_ok (run_set_core cores) ∧ max_ok (run_set_core cores) :=
  foldl_set_core_inv cores cpumask_init ⟨storage_ok_init, max_ok_init⟩

/-- C1. In every state reached from `cpumask_init` by `cpumask_set_core` calls
with arbitrary arguments, `max_core` is `-1` exactly when no index is set;
otherwise the index `max_core` is set and no higher index is; every set index
lies in `[0, 1024)`, and the storage is sixteen words of 64 bits. -/
theorem reachable_max_core_is_greatest_set_bit (cores : List Int) :
    ((run_set_core cores).max_core = -1 ↔
        ∀ c : Int, cpumask_is_set (run_set_core cores) c = false) ∧
    ((run_set_core cores).max_core ≠ -1 →
        cpumask_is_set (run_set_core cores) (run_set_core cores).max_core = true ∧
        ∀ c : Int, (run_set_core cores).max_core < c →
          cpumask_is_set (run_set_core cores) c = false) ∧
    (∀ c : Int, cpumask_is_set (run_set_core cores) c = true → 0 ≤ c ∧ c < 1024) ∧
    (run_set_core cores).mask.length = 16 ∧
    (∀ w ∈ (run_set_core cores).mask, w < 2 ^ 64) := by
  obtain ⟨hst, hmax⟩ := reachable_inv cores
  refine ⟨⟨?_, ?_⟩, ?_, is_set_range _, hst.1, hst.2⟩
  · intro hm c
    by_cases hc : 0 ≤ c
    · exact hmax.2 c (by omega)
    · cases hset : cpumask_is_set (run_set_core cores) c
      · rfl
      · exact absurd (is_set_range _ _ hset).1 hc
  · intro hall
    rcases hmax.1 with hm | hm
    · exact hm
    · rw [hall] at hm; exact absurd hm (by decide)
  · intro hne
    exact ⟨hmax.1.resolve_left hne, hmax.2⟩




/-- C2. For every mask `s` (sixteen words) and every `core`: outside
`[0, 1024)` the call `cpumask_set_core s core` leaves the words and `max_core`
unchanged; inside, `cpumask_is_set` is afterwards true for `core`, unchanged
for every other index, and `max_core` is the maximum of its old value and `core`. -/
theorem set_core_rejects_or_adds (s : cpumask_t) (hs : s.mask.length = 16) (core : Int) :
    ((core < 0 ∨ core ≥ 1024) →
        (cpumask_set_core s core).mask = s.mask ∧ (cpumask_set_core s core).max_core = s.max_core) ∧
    (¬ (core < 0 ∨ core ≥ 1024) →
        cpumask_is_set (cpumask_set_core s core) core = true ∧
        (∀ i : Int, i ≠ core →
          cpumask_is_set (cpumask_set_core s core) i = cpumask_is_set s i) ∧
        (cpumask_set_core s core).max_core = max s.max_core core) := by
  constructor
  · intro h
    rw [set_core_reject s core h]
    exact ⟨rfl, rfl⟩
  · intro h
    have h0 : 0 ≤ core := by omega
    have h1 : core < 1024 := by omega
    refine ⟨?_, ?_, ?_⟩
    · rw [is_set_set_core s hs]; simp [h0, h1]
    · intro i hi
      rw [is_set_set_core s hs]; simp [hi]
    · rw [max_core_set_core, if_pos ⟨h0, h1⟩]

theorem set_core_rejects_or_adds_witness :
    (run_set_core [3, 70]).mask.length = 16 ∧
    (((5 : Int) < 0 ∨ (5 : Int) ≥ 1024) →
        (cpumask_set_core (run_set_core [3, 70]) 5).mask = (run_set_core [3, 70]).mask ∧
        (cpumask_set_core (run_set_core [3, 70]) 5).max_core = (run_set_core [3, 70]).max_core) ∧
    (¬ ((5 : Int) < 0 ∨ (5 : Int) ≥ 1024) →
        cpumask_is_set (cpumask_set_core (run_set_core [3, 70]) 5) 5 = true ∧
        (∀ i : Int, i ≠ 5 →
          cpumask_is_set (cpumask_set_core (run_set_core [3, 70]) 5) i =
            cpumask_is_set (run_set_core [3, 70]) i) ∧
        (cpumask_set_core (run_set_core [3, 70]) 5).max_core = max (run_set_core [3, 70]).max_core 5) :=
  ⟨by decide, set_core_rejects_or_adds (run_set_core [3, 70]) (by decide) 5⟩



/-! ## `count_cores` -/

theorem foldl_count (p : Nat → Bool) (l : List Nat) (a : Int) :
    l.foldl (fun (count : Int) (i : Nat) => if p i then count + 1 else count) a =
      a + ((l.filter p).length : Int) := by
  induction l generalizing a with
  | nil => simp
  | cons x xs ih =>
    rw [List.foldl_cons, ih, List.filter_cons]
    cases h : p x <;> simp
    omega

theorem count_cores_eq_length (s : cpumask_t) :
    count_cores s =
      (((List.range (s.max_core + 1).toNat).filter (fun i : Nat => cpumask_is_set s (i : Int))).length : Int) := by
  unfold count_cores
  rw [foldl_count (fun i : Nat => cpumask_is_set s (i : Int))]
  simp

theorem card_eq_filter_range (p : Int → Bool) (n : Nat) (F : Finset Int)
    (hF : ∀ c : Int, c ∈ F ↔ 0 ≤ c ∧ c < n ∧ p c = true) :
    F.card = ((List.range n).filter (fun i : Nat => p (i : Int))).length := by
  have hnd : (((List.range n).filter (fun i : Nat => p (i : Int))).map (fun i : Nat => (i : Int))).Nodup :=
    ((List.nodup_range n).filter _).map (fun a b h => by simpa using h)
  have : F = (((List.range n).filter (fun i : Nat => p (i : Int))).map (fun i : Nat => (i : Int))).toFinset := by
    ext c
    rw [hF, List.mem_toFinset, List.mem_map]
    constructor
    · rintro ⟨h0, h1, hp⟩
      refine ⟨c.toNat, ?_, Int.toNat_of_nonneg h0⟩
      rw [List.mem_filter, List.mem_range, Int.toNat_of_nonneg h0]
      exact ⟨by omega, hp⟩
    · rintro ⟨i, hi, rfl⟩
      rw [List.mem_filter, List.mem_range] at hi
      exact ⟨by omega, by omega, hi.2⟩
  rw [this, List.toFinset_card_of_nodup hnd, List.length_map]

theorem max_core_bounds (s : cpumask_t) (h : max_ok s) : -1 ≤ s.max_core ∧ s.max_core < 1024 := by
  rcases h.1 with hm | hm
  · omega
  · have := is_set_range s _ hm; omega

theorem count_cores_eq_card (s : cpumask_t) (h : max_ok s) (F : Finset Int)
    (hF : ∀ c : Int, c ∈ F ↔ cpumask_is_set s c = true) :
    (F.card : Int) = count_cores s := by
  rw [count_cores_eq_length]
  congr 1
  apply card_eq_filter_range (fun c => cpumask_is_set s c)
  intro c
  rw [hF]
  constructor
  · intro hc
    have hr := is_set_range s c hc
    refine ⟨hr.1, ?_, hc⟩
    by_contra hlt
    have : s.max_core < c := by
      have := max_core_bounds s h
      omega
    rw [h.2 c this] at hc
    exact absurd hc (by decide)
  · exact fun hc => hc.2.2


theorem is_set_foldl_set_core (cores : List Int) (s : cpumask_t) (hs : s.mask.length = 16) (i : Int) :
    cpumask_is_set (cores.foldl cpumask_set_core s) i =
      (cpumask_is_set s i || decide (i ∈ cores ∧ 0 ≤ i ∧ i < 1024)) := by
  induction cores generalizing s with
  | nil => simp
  | cons c cs ih =>
    rw [List.foldl_cons, ih _ (by rw [set_core_length]; exact hs), is_set_set_core s hs]
    by_cases h1 : i = c
    · subst h1
      by_cases h2 : 0 ≤ i ∧ i < 1024
      · simp [h2]
      · simp [h2]
    · by_cases h2 : i ∈ cs ∧ 0 ≤ i ∧ i < 1024
      · simp [h1, h2]
      · have : ¬ ((i = c ∨ i ∈ cs) ∧ 0 ≤ i ∧ i < 1024) := by
          rintro ⟨h3 | h3, h4⟩
          · exact h1 h3
          · exact h2 ⟨h3, h4⟩
        simp [h1, h2, this]

theorem is_set_run_set_core (cores : List Int) (i : Int) :
    cpumask_is_set (run_set_core cores) i = true ↔ i ∈ cores ∧ 0 ≤ i ∧ i < 1024 := by
  unfold run_set_core
  rw [is_set_foldl_set_core cores cpumask_init storage_ok_init.1, is_set_init]
  simp

/-- C9 (as stated, refuted): adding index 3 twice gives a count of 1, not 2 - 0. -/
theorem count_cores_repeated_index :
    count_cores (run_set_core [3, 3]) ≠
      (([3, 3] : List Int).length : Int) -
        ((([3, 3] : List Int).filter (fun c => decide (c < 0 ∨ c ≥ 1024))).length : Int) := by
  decide

/-- C9 (amended): after any sequence of `cpumask_set_core` calls on a fresh
mask, `count_cores` is the number of distinct indices of the sequence that lie
in `[0, 1024)`; when no accepted index occurs twice this is the number of
calls minus the number of rejected ones. -/
theorem count_cores_distinct_accepted (cores : List Int) :
    count_cores (run_set_core cores) =
        (((cores.filter (fun c => decide (0 ≤ c ∧ c < 1024))).toFinset.card : Nat) : Int) ∧
    ((cores.filter (fun c => decide (0 ≤ c ∧ c < 1024))).Nodup →
      count_cores (run_set_core cores) =
        (cores.length : Int) - ((cores.filter (fun c => decide (c < 0 ∨ c ≥ 1024))).length : Int)) := by
  have h1 : count_cores (run_set_core cores) =
      (((cores.filter (fun c => decide (0 ≤ c ∧ c < 1024))).toFinset.card : Nat) : Int) := by
    symm
    apply count_cores_eq_card _ (reachable_inv cores).2
    intro c
    rw [is_set_run_set_core, List.mem_toFinset, List.mem_filter]
    simp
  refine ⟨h1, ?_⟩
  intro hnd
  rw [h1, List.toFinset_card_of_nodup hnd]
  have hlen := List.length_eq_length_filter_add (l := cores) (fun c => decide (0 ≤ c ∧ c < 1024))
  have hneg : (cores.filter (fun c => !decide (0 ≤ c ∧ c < 1024))) =
      cores.filter (fun c => decide (c < 0 ∨ c ≥ 1024)) := by
    apply List.filter_congr
    intro c _
    by_cases hc : 0 ≤ c ∧ c < 1024
    · have : ¬ (c < 0 ∨ c ≥ 1024) := by omega
      simp [hc, this]
    · have : (c < 0 ∨ c ≥ 1024) := by omega
      simp [hc, this]
  rw [hneg] at hlen
  omega

/-- C10. For every reachable mask, `count_cores` is the number of indices in
`[0, max_core]` whose bit is set, which is the number of integers `c` with
`cpumask_is_set c` (a finite set, `cpumask_is_set` being false outside
`[0, 1024)`); it is `0` for the fresh mask and never exceeds `1024`. -/
theorem count_cores_counts_set_indices (cores : List Int) :
    count_cores (run_set_core cores) =
        ((Finset.filter (fun c : Int => cpumask_is_set (run_set_core cores) c = true)
          (Finset.Icc 0 (run_set_core cores).max_core)).card : Int) ∧
    Set.Finite {c : Int | cpumask_is_set (run_set_core cores) c = true} ∧
    count_cores (run_set_core cores) =
        (Set.ncard {c : Int | cpumask_is_set (run_set_core cores) c = true} : Int) ∧
    (∀ c : Int, c < 0 ∨ c ≥ 1024 → cpumask_is_set (run_set_core cores) c = false) ∧
    count_cores cpumask_init = 0 ∧
    count_cores (run_set_core cores) ≤ 1024 := by
  obtain ⟨-, hmax⟩ := reachable_inv cores
  have hmem : ∀ c : Int,
      c ∈ Finset.filter (fun c : Int => cpumask_is_set (run_set_core cores) c = true)
          (Finset.Icc 0 (run_set_core cores).max_core) ↔
        cpumask_is_set (run_set_core cores) c = true := by
    intro c
    rw [Finset.mem_filter, Finset.mem_Icc]
    constructor
    · exact fun hc => hc.2
    · intro hc
      refine ⟨⟨(is_set_range _ c hc).1, ?_⟩, hc⟩
      by_contra hlt
      rw [hmax.2 c (not_le.mp hlt)] at hc
      exact absurd hc (by decide)
  have hset : {c : Int | cpumask_is_set (run_set_core cores) c = true} =
      ↑(Finset.filter (fun c : Int => cpumask_is_set (run_set_core cores) c = true)
          (Finset.Icc 0 (run_set_core cores).max_core)) := by
    ext c
    rw [Finset.mem_coe, hmem]
    rfl
  refine ⟨(count_cores_eq_card _ hmax _ hmem).symm, ?_, ?_, ?_, by decide, ?_⟩
  · rw [hset]; exact Finset.finite_toSet _
  · rw [hset, Set.ncard_coe_Finset]
    exact (count_cores_eq_card _ hmax _ hmem).symm
  · intro c hc
    cases hs : cpumask_is_set (run_set_core cores) c
    · rfl
    · have := is_set_range _ c hs; omega
  · rw [count_cores_eq_length]
    have h1 := List.length_filter_le (fun i : Nat => cpumask_is_set (run_set_core cores) (i : Int))
      (List.range ((run_set_core cores).max_core + 1).toNat)
    rw [List.length_range] at h1
    have := max_core_bounds _ hmax
    omega


/-! ## `parse_hex_mask` -/

theorem hex_nibble_of_digit (c : Char) (h : is_hex_digit c = true) :
    hex_nibble c = some (hex_digit_value c) ∧ hex_digit_value c < 16 := by
  simp only [is_hex_digit, List.contains_eq_any_beq, List.any_eq_true, beq_iff_eq] at h
  obtain ⟨x, hx, rfl⟩ := h
  simp only [String.toList, List.mem_cons, List.mem_singleton, List.not_mem_nil, or_false] at hx
  rcases hx with rfl | rfl | rfl | rfl | rfl | rfl | rfl | rfl | rfl | rfl | rfl | rfl | rfl | rfl |
    rfl | rfl | rfl | rfl | rfl | rfl | rfl | rfl <;> decide

theorem hex_value_append (ds : List Char) (c : Char) :
    hex_value (ds ++ [c]) = 16 * hex_value ds + hex_digit_value c := by
  simp [hex_value, List.foldl_append]

theorem nibble_loop_length (nib bp : Nat) (k j : Nat) (m : cpumask_t) :
    (nibble_loop nib bp k j m).mask.length = m.mask.length := by
  induction k generalizing j m with
  | zero => rfl
  | succ k ih =>
    simp only [nibble_loop]
    split
    · rw [ih]; split
      · exact set_core_length _ _
      · rfl
    · rfl

theorem is_set_nibble_loop (nib bp : Nat) (i : Int) (k j : Nat) (m : cpumask_t)
    (hm : m.mask.length = 16) :
    cpumask_is_set (nibble_loop nib bp k j m) i =
      (cpumask_is_set m i ||
        (decide (0 ≤ i ∧ i < 1024 ∧ (bp + j : Nat) ≤ i ∧ i < (bp + j + k : Nat)) &&
          nib.testBit (i.toNat - bp))) := by
  induction k generalizing j m with
  | zero =>
    have : ¬ (0 ≤ i ∧ i < 1024 ∧ ((bp + j : Nat) : Int) ≤ i ∧ i < ((bp + j + 0 : Nat) : Int)) := by
      omega
    rw [decide_eq_false this]; simp [nibble_loop]
  | succ k ih =>
    simp only [nibble_loop, MAX_CORES]
    by_cases hlt : bp + j < 1024
    · rw [if_pos hlt, ih]
      · have hbit : (nib &&& 1 <<< j ≠ 0) ↔ nib.testBit j = true := by
          rw [← and_one_shiftLeft_ne]; simp
        by_cases hb : nib.testBit j = true
        · rw [if_pos (hbit.mpr hb), is_set_set_core m hm]
          rw [Bool.eq_iff_iff]
          simp only [Bool.or_eq_true, Bool.and_eq_true, decide_eq_true_eq]
          constructor
          · rintro ((⟨h1, -⟩ | h1) | ⟨h1, h2⟩)
            · right
              refine ⟨by omega, ?_⟩
              have hij : i.toNat - bp = j := by omega
              rw [hij]; exact hb
            · exact Or.inl h1
            · exact Or.inr ⟨by omega, h2⟩
          · rintro (h1 | ⟨h1, h2⟩)
            · exact Or.inl (Or.inr h1)
            · by_cases he : i = ((bp + j : Nat) : Int)
              · exact Or.inl (Or.inl ⟨he, by omega⟩)
              · exact Or.inr ⟨by omega, h2⟩
        · rw [if_neg (fun h => hb (hbit.mp h))]
          rw [Bool.eq_iff_iff]
          simp only [Bool.or_eq_true, Bool.and_eq_true, decide_eq_true_eq]
          constructor
          · rintro (h1 | ⟨h1, h2⟩)
            · exact Or.inl h1
            · exact Or.inr ⟨by omega, h2⟩
          · rintro (h1 | ⟨h1, h2⟩)
            · exact Or.inl h1
            · by_cases he : i = ((bp + j : Nat) : Int)
              · exfalso
                apply hb
                have hij : i.toNat - bp = j := by omega
                rw [hij] at h2; exact h2
              · exact Or.inr ⟨by omega, h2⟩
      · split
        · rw [set_core_length]; exact hm
        · exact hm
    · rw [if_neg hlt]
      have : ¬ (0 ≤ i ∧ i < 1024 ∧ ((bp + j : Nat) : Int) ≤ i ∧ i < ((bp + j + (k + 1) : Nat) : Int)) := by
        omega
      rw [decide_eq_false this]; simp

theorem hex_loop_digits (rev : List Char) (bp : Nat) (m : cpumask_t) (hm : m.mask.length = 16)
    (hd : ∀ c ∈ rev, is_hex_digit c = true) :
    (hex_loop rev bp m).1 = 0 ∧ (hex_loop rev bp m).2.mask.length = 16 ∧
    ∀ i : Int, cpumask_is_set (hex_loop rev bp m).2 i =
      (cpumask_is_set m i ||
        (decide (0 ≤ i ∧ i < 1024 ∧ (bp : Int) ≤ i) &&
          (hex_value rev.reverse).testBit (i.toNat - bp))) := by
  induction rev generalizing bp m with
  | nil =>
    refine ⟨rfl, hm, ?_⟩
    intro i
    simp [hex_loop, hex_value]
  | cons c rest ih =>
    obtain ⟨hnib, hlt16⟩ := hex_nibble_of_digit c (hd c (List.mem_cons_self _ _))
    simp only [hex_loop, MAX_CORES]
    by_cases hlt : bp < 1024
    · rw [if_pos hlt, hnib]
      have hm1 : (nibble_loop (hex_digit_value c) bp 4 0 m).mask.length = 16 := by
        rw [nibble_loop_length]; exact hm
      obtain ⟨r1, r2, r3⟩ := ih (bp + 4) _ hm1 (fun x hx => hd x (List.mem_cons_of_mem _ hx))
      refine ⟨r1, r2, ?_⟩
      intro i
      rw [r3, is_set_nibble_loop _ _ _ _ _ _ hm, List.reverse_cons, hex_value_append]
      have htb := Nat.testBit_mul_pow_two_add (hex_value rest.reverse) (i := 4)
        (b := hex_digit_value c) (by simpa using hlt16) (i.toNat - bp)
      rw [show (2:Nat) ^ 4 = 16 from rfl] at htb
      rw [htb]
      rw [Bool.eq_iff_iff]
      simp only [Bool.or_eq_true, Bool.and_eq_true, decide_eq_true_eq]
      by_cases hi : i.toNat - bp < 4
      · rw [if_pos hi]
        constructor
        · rintro ((h1 | ⟨h1, h2⟩) | ⟨h1, h2⟩)
          · exact Or.inl h1
          · exact Or.inr ⟨by omega, h2⟩
          · omega
        · rintro (h1 | ⟨h1, h2⟩)
          · exact Or.inl (Or.inl h1)
          · exact Or.inl (Or.inr ⟨by omega, h2⟩)
      · rw [if_neg hi]
        have he : i.toNat - (bp + 4) = i.toNat - bp - 4 := by omega
        rw [he]
        constructor
        · rintro ((h1 | ⟨h1, h2⟩) | ⟨h1, h2⟩)
          · exact Or.inl h1
          · omega
          · exact Or.inr ⟨by omega, h2⟩
        · rintro (h1 | ⟨h1, h2⟩)
          · exact Or.inl (Or.inl h1)
          · exact Or.inr ⟨by omega, h2⟩
    · rw [if_neg hlt]
      refine ⟨rfl, hm, ?_⟩
      intro i
      have : ¬ (0 ≤ i ∧ i < 1024 ∧ (bp : Int) ≤ i) := by omega
      rw [decide_eq_false this]; simp


theorem skip_0x_digits (ds : List Char) (hd : ∀ c ∈ ds, is_hex_digit c = true) :
    skip_0x ds = ds := by
  unfold skip_0x
  split
  · have := hd 'x' (by simp)
    exact absurd this (by decide)
  · have := hd 'X' (by simp)
    exact absurd this (by decide)
  · rfl

theorem skip_0x_prefixed (pre ds : List Char)
    (hpre : pre = [] ∨ pre = ['0', 'x'] ∨ pre = ['0', 'X'])
    (hd : ∀ c ∈ ds, is_hex_digit c = true) : skip_0x (pre ++ ds) = ds := by
  rcases hpre with rfl | rfl | rfl
  · exact skip_0x_digits ds hd
  · rfl
  · rfl

theorem parse_hex_mask_digits (pre ds : List Char)
    (hpre : pre = [] ∨ pre = ['0', 'x'] ∨ pre = ['0', 'X']) (hne : ds ≠ [])
    (hd : ∀ c ∈ ds, is_hex_digit c = true) (m : cpumask_t) (hm : m.mask.length = 16) :
    (parse_hex_mask (pre ++ ds) m).1 = 0 ∧ (parse_hex_mask (pre ++ ds) m).2.mask.length = 16 ∧
    ∀ i : Int, cpumask_is_set (parse_hex_mask (pre ++ ds) m).2 i =
      (cpumask_is_set m i || (decide (0 ≤ i ∧ i < 1024) && (hex_value ds).testBit i.toNat)) := by
  unfold parse_hex_mask
  simp only [skip_0x_prefixed pre ds hpre hd]
  rw [if_neg (by simpa using hne)]
  obtain ⟨h1, h2, h3⟩ := hex_loop_digits ds.reverse 0 m hm (fun c hc => hd c (List.mem_reverse.mp hc))
  refine ⟨h1, h2, ?_⟩
  intro i
  rw [h3, List.reverse_reverse]
  congr 2
  · apply decide_eq_decide.mpr
    constructor
    · exact fun h => ⟨h.1, h.2.1⟩
    · exact fun h => ⟨h.1, h.2, by simpa using h.1⟩

/-- C4. For a string made of an optional `0x`/`0X` prefix and one or more
hexadecimal digits of either case, `parse_hex_mask` on a fresh mask returns `0`
and afterwards, for `i` in `[0, 1024)`, `cpumask_is_set i` is bit `i` of the
number the digits denote; nothing at or above `1024` is set, without an error. -/
theorem parse_hex_mask_sets_bits_of_value (pre ds : List Char)
    (hpre : pre = [] ∨ pre = ['0', 'x'] ∨ pre = ['0', 'X']) (hne : ds ≠ [])
    (hd : ∀ c ∈ ds, is_hex_digit c = true) :
    (parse_hex_mask (pre ++ ds) cpumask_init).1 = 0 ∧
    (∀ i : Int, 0 ≤ i → i < 1024 →
      cpumask_is_set (parse_hex_mask (pre ++ ds) cpumask_init).2 i = (hex_value ds).testBit i.toNat) ∧
    (∀ i : Int, 1024 ≤ i →
      cpumask_is_set (parse_hex_mask (pre ++ ds) cpumask_init).2 i = false) := by
  obtain ⟨h1, -, h3⟩ := parse_hex_mask_digits pre ds hpre hne hd cpumask_init storage_ok_init.1
  refine ⟨h1, ?_, ?_⟩
  · intro i h0 h1024
    rw [h3, is_set_init]
    simp [h0, h1024]
  · intro i hi
    rw [h3, is_set_init]
    have : ¬ (0 ≤ i ∧ i < 1024) := by omega
    simp [this]

theorem parse_hex_mask_sets_bits_of_value_witness :
    (['0', 'X'] = ([] : List Char) ∨ ['0', 'X'] = ['0', 'x'] ∨ ['0', 'X'] = ['0', 'X']) ∧
    "1Fa".toList ≠ [] ∧ (∀ c ∈ "1Fa".toList, is_hex_digit c = true) ∧
    (parse_hex_mask (['0', 'X'] ++ "1Fa".toList) cpumask_init).1 = 0 ∧
    (∀ i : Int, 0 ≤ i → i < 1024 →
      cpumask_is_set (parse_hex_mask (['0', 'X'] ++ "1Fa".toList) cpumask_init).2 i =
        (hex_value "1Fa".toList).testBit i.toNat) ∧
    (∀ i : Int, 1024 ≤ i →
      cpumask_is_set (parse_hex_mask (['0', 'X'] ++ "1Fa".toList) cpumask_init).2 i = false) :=
  ⟨by decide, by decide, by decide,
    parse_hex_mask_sets_bits_of_value ['0', 'X'] "1Fa".toList (by decide) (by decide) (by decide)⟩


/-! ## Digits written by `printf` -/

theorem toDigitsCore_eq (b : Nat) (hb : 2 ≤ b) (n : Nat) :
    ∀ fuel acc, n < fuel → Nat.toDigitsCore b fuel n acc = Nat.toDigits b n ++ acc := by
  induction n using Nat.strong_induction_on with
  | _ n ih =>
    intro fuel acc hf
    obtain ⟨f, rfl⟩ : ∃ f, fuel = f + 1 := ⟨fuel - 1, by omega⟩
    have hdiv : n / b = 0 ∨ (n / b ≠ 0 ∧ n / b < n ∧ 0 < n) := by
      by_cases h0 : n / b = 0
      · exact Or.inl h0
      · right
        have hn : 0 < n := by
          rcases Nat.eq_zero_or_pos n with h | h
          · subst h; simp at h0
          · exact h
        exact ⟨h0, Nat.div_lt_self hn hb, hn⟩
    rcases hdiv with h0 | ⟨h0, hlt, hn⟩
    · simp [Nat.toDigits, Nat.toDigitsCore, h0]
    · have e1 : Nat.toDigitsCore b (f + 1) n acc =
          Nat.toDigitsCore b f (n / b) (Nat.digitChar (n % b) :: acc) := by
        simp [Nat.toDigitsCore, h0]
      have e2 : Nat.toDigits b n = Nat.toDigitsCore b n (n / b) [Nat.digitChar (n % b)] := by
        simp [Nat.toDigits, Nat.toDigitsCore, h0]
      rw [e1, e2, ih (n / b) hlt f _ (by omega), ih (n / b) hlt n _ hlt]
      simp

theorem toDigits_small (b : Nat) (n : Nat) (h : n / b = 0) :
    Nat.toDigits b n = [Nat.digitChar (n % b)] := by
  simp [Nat.toDigits, Nat.toDigitsCore, h]

theorem toDigits_step (b : Nat) (hb : 2 ≤ b) (n : Nat) (h : n / b ≠ 0) :
    Nat.toDigits b n = Nat.toDigits b (n / b) ++ [Nat.digitChar (n % b)] := by
  have hn : 0 < n := by
    rcases Nat.eq_zero_or_pos n with h' | h'
    · subst h'; simp at h
    · exact h'
  have e2 : Nat.toDigits b n = Nat.toDigitsCore b n (n / b) [Nat.digitChar (n % b)] := by
    simp [Nat.toDigits, Nat.toDigitsCore, h]
  rw [e2, toDigitsCore_eq b hb (n / b) n _ (Nat.div_lt_self hn hb)]

theorem hex_digit_value_digitChar : ∀ d : Nat, d < 16 → hex_digit_value (Nat.digitChar d) = d := by
  decide

theorem hex_value_toDigits (n : Nat) : hex_value (Nat.toDigits 16 n) = n := by
  induction n using Nat.strong_induction_on with
  | _ n ih =>
    by_cases h : n / 16 = 0
    · rw [toDigits_small 16 n h]
      have hlt : n < 16 := by omega
      show 16 * 0 + hex_digit_value (Nat.digitChar (n % 16)) = n
      rw [hex_digit_value_digitChar _ (Nat.mod_lt _ (by decide))]
      omega
    · rw [toDigits_step 16 (by decide) n h, hex_value_append, ih (n / 16) (by omega),
        hex_digit_value_digitChar _ (Nat.mod_lt _ (by decide))]
      omega

theorem toDigits_ne_nil (b : Nat) (hb : 2 ≤ b) (n : Nat) : Nat.toDigits b n ≠ [] := by
  by_cases h : n / b = 0
  · rw [toDigits_small b n h]; simp
  · rw [toDigits_step b hb n h]; simp

theorem digitChar_ne_zero : ∀ d : Nat, d < 16 → d ≠ 0 → Nat.digitChar d ≠ '0' := by
  decide

theorem toDigits_head (n : Nat) (hn : n ≠ 0) : (Nat.toDigits 16 n).head? ≠ some '0' := by
  induction n using Nat.strong_induction_on with
  | _ n ih =>
    by_cases h : n / 16 = 0
    · rw [toDigits_small 16 n h]
      have hlt : n < 16 := by omega
      rw [Nat.mod_eq_of_lt hlt]
      simpa using digitChar_ne_zero n hlt hn
    · rw [toDigits_step 16 (by decide) n h, List.head?_append_of_ne_nil _ (toDigits_ne_nil 16 (by decide) _)]
      exact ih (n / 16) (by omega) h

theorem digitChar_lower : ∀ d : Nat, d < 16 → Nat.digitChar d ∈ "0123456789abcdef".toList := by
  decide

theorem toDigits_lower (n : Nat) : ∀ c ∈ Nat.toDigits 16 n, c ∈ "0123456789abcdef".toList := by
  induction n using Nat.strong_induction_on with
  | _ n ih =>
    by_cases h : n / 16 = 0
    · rw [toDigits_small 16 n h]
      intro c hc
      rw [List.mem_singleton] at hc
      rw [hc]; exact digitChar_lower _ (Nat.mod_lt _ (by decide))
    · rw [toDigits_step 16 (by decide) n h]
      intro c hc
      rw [List.mem_append, List.mem_singleton] at hc
      rcases hc with hc | hc
      · exact ih (n / 16) (by omega) c hc
      · rw [hc]; exact digitChar_lower _ (Nat.mod_lt _ (by decide))

theorem toDigits_length_le (n e : Nat) (he : 0 < e) (h : n < 16 ^ e) :
    (Nat.toDigits 16 n).length ≤ e :=
  Nat.toDigitsCore_length 16 (by decide) (n + 1) n e h he


/-! ## `print_hex_mask` -/

theorem hex_value_foldl (ys : List Char) (a : Nat) :
    ys.foldl (fun acc c => 16 * acc + hex_digit_value c) a = a * 16 ^ ys.length + hex_value ys := by
  induction ys generalizing a with
  | nil => simp [hex_value]
  | cons y ys ih =>
    have e : hex_value (y :: ys) = (16 * 0 + hex_digit_value y) * 16 ^ ys.length + hex_value ys :=
      ih _
    rw [List.foldl_cons, ih, e]
    simp only [List.length_cons, pow_succ]
    ring

theorem hex_value_append_list (xs ys : List Char) :
    hex_value (xs ++ ys) = hex_value xs * 16 ^ ys.length + hex_value ys := by
  rw [hex_value, List.foldl_append, hex_value_foldl]
  rfl

theorem hex_value_zeros (k : Nat) : hex_value (List.replicate k '0') = 0 := by
  induction k with
  | zero => rfl
  | succ k ih =>
    have e : hex_value ['0'] = 0 := by decide
    rw [List.replicate_succ, ← List.singleton_append, hex_value_append_list, ih, e]
    simp

theorem fmt_llx_value (v : Nat) (hv : v < 2 ^ 64) : hex_value (fmt_llx v) = v := by
  rw [fmt_llx, Nat.mod_eq_of_lt hv, hex_value_toDigits]

theorem fmt_llx_length (v : Nat) : (fmt_llx v).length ≤ 16 :=
  toDigits_length_le _ 16 (by decide) (Nat.mod_lt _ (by decide))

theorem fmt_016llx_length (v : Nat) : (fmt_016llx v).length = 16 := by
  have := fmt_llx_length v
  simp only [fmt_016llx, List.length_append, List.length_replicate]
  omega

theorem fmt_016llx_value (v : Nat) (hv : v < 2 ^ 64) : hex_value (fmt_016llx v) = v := by
  rw [fmt_016llx, hex_value_append_list, hex_value_zeros, fmt_llx_value v hv]
  simp

theorem fmt_llx_lower (v : Nat) : ∀ c ∈ fmt_llx v, c ∈ "0123456789abcdef".toList :=
  toDigits_lower _

theorem fmt_016llx_lower (v : Nat) : ∀ c ∈ fmt_016llx v, c ∈ "0123456789abcdef".toList := by
  intro c hc
  rw [fmt_016llx, List.mem_append] at hc
  rcases hc with hc | hc
  · rw [(List.mem_replicate.mp hc).2]; decide
  · exact fmt_llx_lower v c hc

theorem fmt_llx_head (v : Nat) (hv : v < 2 ^ 64) (h0 : v ≠ 0) : (fmt_llx v).head? ≠ some '0' := by
  rw [fmt_llx, Nat.mod_eq_of_lt hv]
  exact toDigits_head v h0

/-- The lower words of the loop in `print_hex_mask`: once something is printed,
each word below `max_word` is appended with sixteen digits. -/
theorem print_hex_lower_words (s : cpumask_t) (k : Nat) (l : List Nat) (hl : ∀ w ∈ l, w ≠ k)
    (acc : List Char) :
    l.foldl (print_hex_step s k) (true, acc) =
      (true, acc ++ l.flatMap (fun w => fmt_016llx (s.mask.getD w 0))) := by
  induction l generalizing acc with
  | nil => simp
  | cons w ws ih =>
    have hw : w ≠ k := hl w (List.mem_cons_self _ _)
    rw [List.foldl_cons]
    have : print_hex_step s k (true, acc) w = (true, acc ++ fmt_016llx (s.mask.getD w 0)) := by
      simp [print_hex_step, hw]
    rw [this, ih (fun x hx => hl x (List.mem_cons_of_mem _ hx))]
    simp

theorem print_hex_mask_eq (s : cpumask_t) (h0 : 0 ≤ s.max_core)
    (hw : s.mask.getD (s.max_core.toNat / 64) 0 ≠ 0) :
    print_hex_mask s = ['0', 'x'] ++ hex_words_text s ++ ['\n'] := by
  unfold print_hex_mask
  rw [if_neg (by omega)]
  simp only [List.range_succ, List.reverse_append, List.reverse_singleton, List.singleton_append,
    List.foldl_cons]
  have : print_hex_step s (s.max_core.toNat / 64) (false, ['0', 'x']) (s.max_core.toNat / 64) =
      (true, ['0', 'x'] ++ fmt_llx (s.mask.getD (s.max_core.toNat / 64) 0)) := by
    unfold print_hex_step
    rw [if_pos rfl]
    simp only []
    rw [if_neg (fun h => hw h.1)]
  rw [this, print_hex_lower_words]
  · simp [hex_words_text]
  · intro w hw'
    rw [List.mem_reverse, List.mem_range] at hw'
    omega


theorem sum_two_pow_testBit (n N : Nat) :
    ∑ i in (Finset.range N).filter (fun i => n.testBit i = true), 2 ^ i = n % 2 ^ N := by
  induction N with
  | zero => simp [Nat.mod_one]
  | succ N ih =>
    rw [Finset.range_succ, Finset.filter_insert, Nat.mod_pow_succ]
    by_cases hb : n.testBit N = true
    · rw [if_pos hb, Finset.sum_insert (by simp), ih]
      rw [Nat.testBit_to_div_mod] at hb
      have : n / 2 ^ N % 2 = 1 := by simpa using hb
      rw [this]; omega
    · rw [if_neg hb, ih]
      rw [Nat.testBit_to_div_mod] at hb
      have : n / 2 ^ N % 2 = 0 := by
        have h2 := Nat.mod_two_eq_zero_or_one (n / 2 ^ N)
        rcases h2 with h2 | h2
        · exact h2
        · exact absurd (by simpa using h2) hb
      rw [this]; omega

theorem words_value_lt (l : List Nat) (hl : ∀ w ∈ l, w < 2 ^ 64) :
    words_value l < 2 ^ (64 * l.length) := by
  induction l with
  | nil => simp [words_value]
  | cons w ws ih =>
    have h1 := hl w (List.mem_cons_self _ _)
    have h2 := ih (fun x hx => hl x (List.mem_cons_of_mem _ hx))
    simp only [words_value, List.length_cons]
    have e : 2 ^ (64 * (ws.length + 1)) = 2 ^ 64 * 2 ^ (64 * ws.length) := by
      rw [← pow_add]; congr 1; ring
    rw [e]
    have h3 : words_value ws + 1 ≤ 2 ^ (64 * ws.length) := h2
    calc w + 2 ^ 64 * words_value ws < 2 ^ 64 + 2 ^ 64 * words_value ws := by omega
      _ = 2 ^ 64 * (words_value ws + 1) := by ring
      _ ≤ 2 ^ 64 * 2 ^ (64 * ws.length) := Nat.mul_le_mul_left _ h3

theorem words_value_testBit (l : List Nat) (hl : ∀ w ∈ l, w < 2 ^ 64) (i : Nat) :
    (words_value l).testBit i = (l.getD (i / 64) 0).testBit (i % 64) := by
  induction l generalizing i with
  | nil => simp [words_value]
  | cons w ws ih =>
    have h1 := hl w (List.mem_cons_self _ _)
    have h2 := ih (fun x hx => hl x (List.mem_cons_of_mem _ hx))
    rw [words_value, Nat.add_comm, Nat.testBit_mul_pow_two_add _ h1]
    by_cases hi : i < 64
    · rw [if_pos hi]
      have e1 : i / 64 = 0 := by omega
      have e2 : i % 64 = i := by omega
      rw [e1, e2]; rfl
    · rw [if_neg hi, h2]
      obtain ⟨q, hq⟩ : ∃ q, i / 64 = q + 1 := ⟨i / 64 - 1, by omega⟩
      have e1 : (i - 64) / 64 = q := by omega
      have e2 : (i - 64) % 64 = i % 64 := by omega
      rw [e1, e2, hq]; rfl

theorem words_value_append (l : List Nat) (w : Nat) :
    words_value (l ++ [w]) = words_value l + w * 2 ^ (64 * l.length) := by
  induction l with
  | nil => simp [words_value]
  | cons x xs ih =>
    have e : 2 ^ (64 * (xs.length + 1)) = 2 ^ 64 * 2 ^ (64 * xs.length) := by
      rw [← pow_add]; congr 1; ring
    show x + 2 ^ 64 * words_value (xs ++ [w]) = x + 2 ^ 64 * words_value xs + w * 2 ^ (64 * (xs.length + 1))
    rw [ih, e]; ring

theorem hex_value_padded_words (l : List Nat) (hl : ∀ w ∈ l, w < 2 ^ 64) (top : List Char) :
    hex_value (top ++ l.reverse.flatMap fmt_016llx) =
      hex_value top * 2 ^ (64 * l.length) + words_value l := by
  induction l generalizing top with
  | nil => simp [words_value]
  | cons w ws ih =>
    have h1 := hl w (List.mem_cons_self _ _)
    rw [List.reverse_cons, List.flatMap_append, ← List.append_assoc, hex_value_append_list,
      ih (fun x hx => hl x (List.mem_cons_of_mem _ hx))]
    simp only [List.flatMap_cons, List.flatMap_nil, List.append_nil, fmt_016llx_length,
      fmt_016llx_value w h1, words_value, List.length_cons]
    have e : 2 ^ (64 * (ws.length + 1)) = 2 ^ 64 * 2 ^ (64 * ws.length) := by
      rw [← pow_add]; congr 1; ring
    rw [e]
    have e16 : (16 : Nat) ^ 16 = 2 ^ 64 := by norm_num
    rw [e16]; ring

theorem map_getD_range (l : List Nat) (k : Nat) (hk : k ≤ l.length) :
    (List.range k).map (fun w => l.getD w 0) = l.take k := by
  apply List.ext_getElem
  · simp [hk]
  · intro n h1 h2
    simp only [List.length_map, List.length_range] at h1
    simp [List.getD_eq_getElem?_getD, List.getElem?_eq_getElem (show n < l.length by omega)]

theorem hex_words_text_eq (s : cpumask_t) (hk : s.max_core.toNat / 64 < s.mask.length) :
    hex_words_text s =
      fmt_llx (s.mask.getD (s.max_core.toNat / 64) 0) ++
        (s.mask.take (s.max_core.toNat / 64)).reverse.flatMap fmt_016llx := by
  rw [hex_words_text, ← map_getD_range s.mask _ (le_of_lt hk), ← List.map_reverse,
    List.flatMap_map]

theorem hex_words_text_value (s : cpumask_t) (hs : storage_ok s)
    (hk : s.max_core.toNat / 64 < s.mask.length) :
    hex_value (hex_words_text s) = words_value (s.mask.take (s.max_core.toNat / 64 + 1)) := by
  have hw : s.mask.getD (s.max_core.toNat / 64) 0 < 2 ^ 64 := by
    rw [List.getD_eq_getElem?_getD, List.getElem?_eq_getElem hk]
    exact hs.2 _ (List.getElem_mem _)
  rw [hex_words_text_eq s hk, hex_value_padded_words _ (fun w h => hs.2 w (List.mem_of_mem_take h)),
    fmt_llx_value _ hw, List.take_succ, List.getElem?_eq_getElem hk, Option.toList,
    words_value_append, List.length_take, min_eq_left (le_of_lt hk),
    List.getD_eq_getElem?_getD, List.getElem?_eq_getElem hk]
  simp only [Option.getD_some]
  ring


/-- What the invariants give for a non-empty mask: `max_core` is a valid index
and the word that holds it is not zero. -/
theorem top_word_ne_zero (s : cpumask_t) (hmax : max_ok s) (hne : s.max_core ≠ -1) :
    0 ≤ s.max_core ∧ s.max_core < 1024 ∧ s.mask.getD (s.max_core.toNat / 64) 0 ≠ 0 := by
  have hset := hmax.1.resolve_left hne
  have hr := is_set_range s _ hset
  refine ⟨hr.1, hr.2, ?_⟩
  rw [is_set_eq] at hset
  simp only [Bool.and_eq_true, decide_eq_true_eq] at hset
  intro h0
  rw [h0] at hset
  simp at hset

theorem hex_words_text_testBit (s : cpumask_t) (hs : storage_ok s) (hmax : max_ok s)
    (hne : s.max_core ≠ -1) (i : Nat) :
    (hex_value (hex_words_text s)).testBit i = cpumask_is_set s (i : Int) := by
  obtain ⟨h0, h1, -⟩ := top_word_ne_zero s hmax hne
  have hk : s.max_core.toNat / 64 < s.mask.length := by rw [hs.1]; omega
  rw [hex_words_text_value s hs hk,
    words_value_testBit _ (fun w h => hs.2 w (List.mem_of_mem_take h))]
  by_cases hi : i / 64 ≤ s.max_core.toNat / 64
  · rw [is_set_eq]
    have e : (List.take (s.max_core.toNat / 64 + 1) s.mask).getD (i / 64) 0 =
        s.mask.getD (i / 64) 0 := by
      simp only [List.getD_eq_getElem?_getD, List.getElem?_take]
      rw [if_pos (by omega)]
    have hi' : (0 : Int) ≤ i ∧ (i : Int) < 1024 := by omega
    rw [e, decide_eq_true hi']
    simp
  · have e : (List.take (s.max_core.toNat / 64 + 1) s.mask).getD (i / 64) 0 = 0 := by
      simp only [List.getD_eq_getElem?_getD, List.getElem?_take]
      rw [if_neg (by omega)]
      rfl
    rw [e, hmax.2 (i : Int) (by omega)]
    simp

theorem hex_words_text_sum (s : cpumask_t) (hs : storage_ok s) (hmax : max_ok s)
    (hne : s.max_core ≠ -1) :
    hex_value (hex_words_text s) =
      ∑ i in (Finset.range 1024).filter (fun i : Nat => cpumask_is_set s (i : Int) = true), 2 ^ i := by
  obtain ⟨h0, h1, -⟩ := top_word_ne_zero s hmax hne
  have hk : s.max_core.toNat / 64 < s.mask.length := by rw [hs.1]; omega
  have hlt : hex_value (hex_words_text s) < 2 ^ 1024 := by
    rw [hex_words_text_value s hs hk]
    refine lt_of_lt_of_le (words_value_lt _ (fun w h => hs.2 w (List.mem_of_mem_take h))) ?_
    apply Nat.pow_le_pow_right (by decide)
    rw [List.length_take]
    have := hs.1
    omega
  have hsum := sum_two_pow_testBit (hex_value (hex_words_text s)) 1024
  rw [Nat.mod_eq_of_lt hlt] at hsum
  rw [← hsum]
  apply Finset.sum_congr _ (fun _ _ => rfl)
  apply Finset.filter_congr
  intro i _
  rw [hex_words_text_testBit s hs hmax hne]

theorem hex_words_text_lower (s : cpumask_t) :
    ∀ c ∈ hex_words_text s, c ∈ "0123456789abcdef".toList := by
  intro c hc
  rw [hex_words_text, List.mem_append, List.mem_flatMap] at hc
  rcases hc with hc | ⟨w, -, hc⟩
  · exact fmt_llx_lower _ c hc
  · exact fmt_016llx_lower _ c hc

theorem fmt_llx_ne_nil (v : Nat) : fmt_llx v ≠ [] := toDigits_ne_nil 16 (by decide) _

theorem hex_words_text_head (s : cpumask_t) (hs : storage_ok s) (hmax : max_ok s)
    (hne : s.max_core ≠ -1) : (hex_words_text s).head? ≠ some '0' := by
  obtain ⟨h0, h1, hw⟩ := top_word_ne_zero s hmax hne
  have hk : s.max_core.toNat / 64 < s.mask.length := by rw [hs.1]; omega
  have hlt : s.mask.getD (s.max_core.toNat / 64) 0 < 2 ^ 64 := by
    rw [List.getD_eq_getElem?_getD, List.getElem?_eq_getElem hk]
    exact hs.2 _ (List.getElem_mem _)
  rw [hex_words_text, List.head?_append_of_ne_nil _ (fmt_llx_ne_nil _)]
  exact fmt_llx_head _ hlt hw


theorem nibble_loop_inv (nib bp : Nat) (k j : Nat) (m : cpumask_t)
    (h : storage_ok m ∧ max_ok m) :
    storage_ok (nibble_loop nib bp k j m) ∧ max_ok (nibble_loop nib bp k j m) := by
  induction k generalizing j m with
  | zero => exact h
  | succ k ih =>
    simp only [nibble_loop]
    split
    · apply ih
      split
      · exact ⟨storage_ok_set_core _ _ h.1, max_ok_set_core _ _ h.1.1 h.2⟩
      · exact h
    · exact h

theorem hex_loop_inv (rev : List Char) (bp : Nat) (m : cpumask_t)
    (h : storage_ok m ∧ max_ok m) :
    storage_ok (hex_loop rev bp m).2 ∧ max_ok (hex_loop rev bp m).2 := by
  induction rev generalizing bp m with
  | nil => exact h
  | cons c rest ih =>
    simp only [hex_loop]
    split
    · split
      · exact h
      · exact ih _ _ (nibble_loop_inv _ _ _ _ _ h)
    · exact h

theorem parse_hex_mask_inv (str : List Char) (m : cpumask_t) (h : storage_ok m ∧ max_ok m) :
    storage_ok (parse_hex_mask str m).2 ∧ max_ok (parse_hex_mask str m).2 := by
  unfold parse_hex_mask
  simp only []
  split
  · exact h
  · exact hex_loop_inv _ _ _ h

theorem print_hex_mask_empty (s : cpumask_t) (h : s.max_core = -1) :
    print_hex_mask s = ['0', 'x'] ++ ['0'] ++ ['\n'] := by
  unfold print_hex_mask
  rw [if_pos (by omega)]
  rfl

/-- The text after `0x` that `print_hex_mask` writes for a mask satisfying the
invariants denotes the number whose bits are the members of the mask. -/
theorem print_hex_mask_value (s : cpumask_t) (hs : storage_ok s) (hmax : max_ok s) :
    ∃ out : List Char, print_hex_mask s = ['0', 'x'] ++ out ++ ['\n'] ∧
      (∀ c ∈ out, c ∈ "0123456789abcdef".toList) ∧
      (out = ['0'] ∨ (out ≠ [] ∧ out.head? ≠ some '0')) ∧
      ∀ i : Nat, (hex_value out).testBit i = cpumask_is_set s (i : Int) := by
  by_cases hne : s.max_core = -1
  · refine ⟨['0'], print_hex_mask_empty s hne, by decide, Or.inl rfl, ?_⟩
    intro i
    rw [hmax.2 (i : Int) (by omega)]
    show (0 : Nat).testBit i = false
    simp
  · obtain ⟨h0, h1, hw⟩ := top_word_ne_zero s hmax hne
    refine ⟨hex_words_text s, print_hex_mask_eq s h0 hw, hex_words_text_lower s,
      Or.inr ⟨?_, hex_words_text_head s hs hmax hne⟩, hex_words_text_testBit s hs hmax hne⟩
    rw [hex_words_text]
    exact List.append_ne_nil_of_left_ne_nil (fmt_llx_ne_nil _) _

/-- C6. For a reachable mask with a member, `print_hex_mask` writes `0x`, the
word holding `max_core` as `%llx` and every lower word as sixteen digits
(`hex_words_text`), then the newline; the first digit is not `0`, every digit
is a lower-case hexadecimal digit, each lower word takes exactly sixteen
columns, and the digits denote the sum of `2 ^ i` over the set indices `i`. -/
theorem print_hex_mask_words (cores : List Int) (s : cpumask_t) (hs : s = run_set_core cores)
    (hne : s.max_core ≠ -1) :
    print_hex_mask s = ['0', 'x'] ++ hex_words_text s ++ ['\n'] ∧
    hex_words_text s =
      fmt_llx (s.mask.getD (s.max_core.toNat / 64) 0) ++
        (List.range (s.max_core.toNat / 64)).reverse.flatMap
          (fun w => fmt_016llx (s.mask.getD w 0)) ∧
    hex_value (fmt_llx (s.mask.getD (s.max_core.toNat / 64) 0)) =
      s.mask.getD (s.max_core.toNat / 64) 0 ∧
    (∀ w : Nat, w < s.max_core.toNat / 64 →
      (fmt_016llx (s.mask.getD w 0)).length = 16 ∧
      hex_value (fmt_016llx (s.mask.getD w 0)) = s.mask.getD w 0) ∧
    (hex_words_text s).head? ≠ some '0' ∧
    (∀ c ∈ hex_words_text s, c ∈ "0123456789abcdef".toList) ∧
    hex_value (hex_words_text s) =
      ∑ i in (Finset.range 1024).filter (fun i : Nat => cpumask_is_set s (i : Int) = true), 2 ^ i := by
  subst hs
  obtain ⟨hst, hmax⟩ := reachable_inv cores
  obtain ⟨h0, h1, hw⟩ := top_word_ne_zero _ hmax hne
  have hword : ∀ w : Nat, (run_set_core cores).mask.getD w 0 < 2 ^ 64 := by
    intro w
    rw [List.getD_eq_getElem?_getD]
    cases hg : (run_set_core cores).mask[w]? with
    | none => simp
    | some v => simpa using hst.2 v (List.getElem?_mem hg)
  refine ⟨print_hex_mask_eq _ h0 hw, rfl, fmt_llx_value _ (hword _), ?_,
    hex_words_text_head _ hst hmax hne, hex_words_text_lower _, hex_words_text_sum _ hst hmax hne⟩
  intro w _
  exact ⟨fmt_016llx_length _, fmt_016llx_value _ (hword w)⟩

theorem print_hex_mask_words_witness :
    (run_set_core [4, 5, 6, 9, 64, 1]).max_core ≠ -1 ∧
    print_hex_mask (run_set_core [4, 5, 6, 9, 64, 1]) =
      ['0', 'x'] ++ hex_words_text (run_set_core [4, 5, 6, 9, 64, 1]) ++ ['\n'] ∧
    print_hex_mask (run_set_core [4, 5, 6, 9, 64, 1]) = "0x10000000000000272\n".toList :=
  ⟨by decide,
    (print_hex_mask_words [4, 5, 6, 9, 64, 1] (run_set_core [4, 5, 6, 9, 64, 1]) rfl (by decide)).1,
    by decide⟩

/-- C8 (as stated, refuted): the 257-digit string `1000...0` denotes `16 ^ 256`,
is parsed without error into the empty mask, and is printed back as `0x0`. -/
theorem hex_round_trip_loses_high_bits :
    (parse_hex_mask ('1' :: List.replicate 256 '0') cpumask_init).1 = 0 ∧
    print_hex_mask (parse_hex_mask ('1' :: List.replicate 256 '0') cpumask_init).2 =
      ['0', 'x'] ++ ['0'] ++ ['\n'] ∧
    hex_value ['0'] ≠ hex_value ('1' :: List.replicate 256 '0') := by
  set_option maxRecDepth 1000000 in decide

/-- C8 (amended): for a valid hexadecimal string, with or without the `0x`/`0X`
prefix, parsing into a fresh mask succeeds and printing the mask gives `0x`
followed by lower-case digits without a leading zero (the single digit `0` for
zero) that denote the number of the input modulo `2 ^ 1024`, hence the same
number whenever the input denotes a number below `2 ^ 1024`. -/
theorem hex_round_trip_mod_capacity (pre ds : List Char)
    (hpre : pre = [] ∨ pre = ['0', 'x'] ∨ pre = ['0', 'X']) (hne : ds ≠ [])
    (hd : ∀ c ∈ ds, is_hex_digit c = true) :
    (parse_hex_mask (pre ++ ds) cpumask_init).1 = 0 ∧
    ∃ out : List Char,
      print_hex_mask (parse_hex_mask (pre ++ ds) cpumask_init).2 = ['0', 'x'] ++ out ++ ['\n'] ∧
      (∀ c ∈ out, c ∈ "0123456789abcdef".toList) ∧
      (out = ['0'] ∨ (out ≠ [] ∧ out.head? ≠ some '0')) ∧
      hex_value out = hex_value ds % 2 ^ 1024 ∧
      (hex_value ds < 2 ^ 1024 → hex_value out = hex_value ds) := by
  obtain ⟨h1, -, h3⟩ := parse_hex_mask_digits pre ds hpre hne hd cpumask_init storage_ok_init.1
  obtain ⟨hst, hmax⟩ := parse_hex_mask_inv (pre ++ ds) cpumask_init ⟨storage_ok_init, max_ok_init⟩
  obtain ⟨out, ho1, ho2, ho3, ho4⟩ := print_hex_mask_value _ hst hmax
  have hval : hex_value out = hex_value ds % 2 ^ 1024 := by
    apply Nat.eq_of_testBit_eq
    intro i
    rw [ho4, h3, is_set_init, Nat.testBit_mod_two_pow]
    by_cases hi : i < 1024
    · have : (0 : Int) ≤ i ∧ (i : Int) < 1024 := by omega
      simp [hi, this]
    · have : ¬ ((0 : Int) ≤ i ∧ (i : Int) < 1024) := by omega
      simp [hi, this]
  refine ⟨h1, out, ho1, ho2, ho3, hval, ?_⟩
  intro hlt
  rw [hval, Nat.mod_eq_of_lt hlt]

theorem hex_round_trip_mod_capacity_witness :
    (([] : List Char) = [] ∨ ([] : List Char) = ['0', 'x'] ∨ ([] : List Char) = ['0', 'X']) ∧
    "00fF1".toList ≠ [] ∧ (∀ c ∈ "00fF1".toList, is_hex_digit c = true) ∧
    (parse_hex_mask ([] ++ "00fF1".toList) cpumask_init).1 = 0 ∧
    print_hex_mask (parse_hex_mask ([] ++ "00fF1".toList) cpumask_init).2 = "0xff1\n".toList ∧
    ∃ out : List Char,
      print_hex_mask (parse_hex_mask ([] ++ "00fF1".toList) cpumask_init).2 =
        ['0', 'x'] ++ out ++ ['\n'] ∧
      (∀ c ∈ out, c ∈ "0123456789abcdef".toList) ∧
      (out = ['0'] ∨ (out ≠ [] ∧ out.head? ≠ some '0')) ∧
      hex_value out = hex_value "00fF1".toList % 2 ^ 1024 ∧
      (hex_value "00fF1".toList < 2 ^ 1024 → hex_value out = hex_value "00fF1".toList) :=
  ⟨by decide, by decide, by decide, by decide, by decide,
    (hex_round_trip_mod_capacity [] "00fF1".toList (by decide) (by decide) (by decide)).2⟩


/-! ## `parse_core_list` -/

theorem dec_digit_facts (c : Char) (h : is_dec_digit c = true) :
    isdigit c = true ∧ c.toNat - '0'.toNat = dec_digit_value c ∧ isspace c = false ∧
      c ≠ '-' ∧ c ≠ '+' ∧ c ≠ ',' := by
  simp only [is_dec_digit, List.contains_eq_any_beq, List.any_eq_true, beq_iff_eq] at h
  obtain ⟨x, hx, rfl⟩ := h
  simp only [String.toList, List.mem_cons, List.mem_singleton, List.not_mem_nil, or_false] at hx
  rcases hx with rfl | rfl | rfl | rfl | rfl | rfl | rfl | rfl | rfl | rfl <;> decide

theorem strtol_digits_foldl (ds : List Char) (hd : ∀ c ∈ ds, is_dec_digit c = true) (acc : Nat) :
    strtol_digits ds acc = ds.foldl (fun acc c => 10 * acc + dec_digit_value c) acc := by
  induction ds generalizing acc with
  | nil => rfl
  | cons c cs ih =>
    obtain ⟨h1, h2, -⟩ := dec_digit_facts c (hd c (List.mem_cons_self _ _))
    rw [strtol_digits, if_pos h1, h2, List.foldl_cons, Nat.mul_comm,
      ih (fun x hx => hd x (List.mem_cons_of_mem _ hx))]

theorem strtol_digits_eq (ds : List Char) (hd : ∀ c ∈ ds, is_dec_digit c = true) :
    strtol_digits ds 0 = dec_value ds :=
  strtol_digits_foldl ds hd 0

theorem dropWhile_isspace_digits (ds : List Char) (hd : ∀ c ∈ ds, is_dec_digit c = true) :
    ds.dropWhile isspace = ds := by
  cases ds with
  | nil => rfl
  | cons c cs =>
    obtain ⟨-, -, h3, -⟩ := dec_digit_facts c (hd c (List.mem_cons_self _ _))
    rw [List.dropWhile_cons, h3]
    rfl

theorem atoi_digits (ds : List Char) (hd : ∀ c ∈ ds, is_dec_digit c = true)
    (hv : dec_value ds < 2 ^ 31) : atoi ds = (dec_value ds : Int) := by
  have hs : strtol10 ds = clamp_long (strtol_digits ds 0) := by
    unfold strtol10
    rw [dropWhile_isspace_digits ds hd]
    split
    · have := (dec_digit_facts '-' (hd _ (List.mem_cons_self _ _))).2.2.2.1
      exact absurd rfl this
    · have := (dec_digit_facts '+' (hd _ (List.mem_cons_self _ _))).2.2.2.2.1
      exact absurd rfl this
    · rfl
  rw [atoi, hs, strtol_digits_eq ds hd]
  have h31 : (dec_value ds : Int) < 2 ^ 31 := by exact_mod_cast hv
  have h0 : (0 : Int) ≤ dec_value ds := Int.natCast_nonneg _
  unfold clamp_long wrap32
  rw [if_neg (by omega), if_neg (by omega)]
  omega


theorem wrap32_id (x : Int) (h0 : -(2 ^ 31) ≤ x) (h1 : x < 2 ^ 31) : wrap32 x = x := by
  unfold wrap32; omega

theorem range_loop_spec (n : Nat) :
    ∀ (fuel : Nat) (m : cpumask_t) (i e : Int), e + 1 - i = (n : Int) → -(2 ^ 31) ≤ i →
      e < 2 ^ 31 - 1 → n < fuel → storage_ok m ∧ max_ok m →
      ∃ m', range_loop fuel m i e = some m' ∧ (storage_ok m' ∧ max_ok m') ∧
        ∀ c : Int, cpumask_is_set m' c =
          (cpumask_is_set m c || decide (i ≤ c ∧ c ≤ e ∧ 0 ≤ c ∧ c < 1024)) := by
  induction n with
  | zero =>
    intro fuel m i e hn _ _ hf hm
    obtain ⟨f, rfl⟩ : ∃ f, fuel = f + 1 := ⟨fuel - 1, by omega⟩
    refine ⟨m, ?_, hm, ?_⟩
    · rw [range_loop, if_neg (by omega)]
    · intro c
      have : ¬ (i ≤ c ∧ c ≤ e ∧ 0 ≤ c ∧ c < 1024) := by omega
      rw [decide_eq_false this]; simp
  | succ n ih =>
    intro fuel m i e hn hi he hf hm
    obtain ⟨f, rfl⟩ : ∃ f, fuel = f + 1 := ⟨fuel - 1, by omega⟩
    have hle : i ≤ e := by omega
    obtain ⟨m', h1, h2, h3⟩ := ih f (cpumask_set_core m i) (i + 1) e (by omega) (by omega) he
      (by omega) ⟨storage_ok_set_core m i hm.1, max_ok_set_core m i hm.1.1 hm.2⟩
    refine ⟨m', ?_, h2, ?_⟩
    · rw [range_loop, if_pos hle, wrap32_id (i + 1) (by omega) (by omega)]
      exact h1
    · intro c
      rw [h3, is_set_set_core m hm.1.1, Bool.eq_iff_iff]
      simp only [Bool.or_eq_true, decide_eq_true_eq]
      constructor
      · rintro ((⟨h4, h5⟩ | h4) | h4)
        · exact Or.inr (by omega)
        · exact Or.inl h4
        · exact Or.inr (by omega)
      · rintro (h4 | h4)
        · exact Or.inl (Or.inr h4)
        · by_cases hc : c = i
          · exact Or.inl (Or.inl ⟨hc, by omega⟩)
          · exact Or.inr (by omega)

theorem dropWhile_append_all (p : Char → Bool) (ws r : List Char) (h : ∀ c ∈ ws, p c = true) :
    (ws ++ r).dropWhile p = r.dropWhile p := by
  induction ws with
  | nil => rfl
  | cons c cs ih =>
    rw [List.cons_append, List.dropWhile_cons, h c (List.mem_cons_self _ _)]
    exact ih (fun x hx => h x (List.mem_cons_of_mem _ hx))

theorem takeWhile_until (p : Char → Bool) (l r : List Char) (x : Char)
    (h : ∀ c ∈ l, p c = true) (hx : p x = false) : (l ++ x :: r).takeWhile p = l := by
  induction l with
  | nil => simp [List.takeWhile_cons, hx]
  | cons c cs ih =>
    rw [List.cons_append, List.takeWhile_cons, h c (List.mem_cons_self _ _)]
    simp only [if_true]
    rw [ih (fun y hy => h y (List.mem_cons_of_mem _ hy))]

theorem dropWhile_until (p : Char → Bool) (l r : List Char) (x : Char)
    (h : ∀ c ∈ l, p c = true) (hx : p x = false) : (l ++ x :: r).dropWhile p = x :: r := by
  rw [dropWhile_append_all p l _ h, List.dropWhile_cons, hx]
  rfl

theorem token_dropWhile (t : core_token) (hv : t.valid) :
    t.text.dropWhile isspace = t.lo ++ (match t.hi with | none => [] | some h => '-' :: h) := by
  obtain ⟨hws, ⟨hne, hd, -⟩, -⟩ := hv
  rw [core_token.text, List.append_assoc, dropWhile_append_all isspace _ _ hws]
  cases hlo : t.lo with
  | nil => exact absurd hlo hne
  | cons c cs =>
    have := (dec_digit_facts c (hd c (by rw [hlo]; exact List.mem_cons_self _ _))).2.2.1
    rw [List.cons_append, List.dropWhile_cons, this]
    rfl

theorem digits_no_dash (ds : List Char) (hd : ∀ c ∈ ds, is_dec_digit c = true) :
    ∀ c ∈ ds, decide (c ≠ '-') = true := by
  intro c hc
  exact decide_eq_true (dec_digit_facts c (hd c hc)).2.2.2.1

theorem parse_token_spec (t : core_token) (hv : t.valid) (fuel : Nat) (hf : 2 ^ 31 ≤ fuel)
    (m : cpumask_t) (hm : storage_ok m ∧ max_ok m) :
    ∃ m', parse_token fuel t.text m = some (false, m') ∧ (storage_ok m' ∧ max_ok m') ∧
      ∀ c : Int, cpumask_is_set m' c = true ↔
        (cpumask_is_set m c = true ∨ (0 ≤ c ∧ c < 1024 ∧ t.covers c)) := by
  have hdrop := token_dropWhile t hv
  obtain ⟨hws, ⟨hne, hd, hlt⟩, hhi⟩ := hv
  unfold parse_token
  simp only [hdrop]
  cases hh : t.hi with
  | none =>
    simp only [List.append_nil]
    have hnd : ¬ ('-' ∈ t.lo) := fun hmem =>
      (dec_digit_facts _ (hd _ hmem)).2.2.2.1 rfl
    rw [if_neg hnd, atoi_digits t.lo hd (by omega)]
    refine ⟨_, rfl, ⟨storage_ok_set_core _ _ hm.1, max_ok_set_core _ _ hm.1.1 hm.2⟩, ?_⟩
    intro c
    rw [is_set_set_core m hm.1.1]
    simp only [Bool.or_eq_true, decide_eq_true_eq, core_token.covers, hh]
    constructor
    · rintro (⟨h1, h2, h3⟩ | h1)
      · exact Or.inr ⟨by omega, by omega, h1⟩
      · exact Or.inl h1
    · rintro (h1 | ⟨h1, h2, h3⟩)
      · exact Or.inr h1
      · exact Or.inl ⟨h3, by omega, by omega⟩
  | some h =>
    rw [hh] at hhi
    obtain ⟨⟨hne', hd', hlt'⟩, hle⟩ := hhi
    simp only []
    rw [if_pos (by simp), takeWhile_until _ _ _ _ (digits_no_dash t.lo hd) (by decide),
      dropWhile_until _ _ _ _ (digits_no_dash t.lo hd) (by decide), List.drop_one, List.tail_cons,
      atoi_digits t.lo hd (by omega), atoi_digits h hd' (by omega)]
    rw [if_neg (by omega)]
    have hfuel : dec_value h + 1 - dec_value t.lo < fuel := by
      have : dec_value h + 1 - dec_value t.lo ≤ 2 ^ 31 - 1 := by omega
      omega
    obtain ⟨m', h1, h2, h3⟩ := range_loop_spec (dec_value h + 1 - dec_value t.lo) fuel m
      (dec_value t.lo) (dec_value h) (by omega) (by omega) (by omega) hfuel hm
    refine ⟨m', by rw [h1]; rfl, h2, ?_⟩
    intro c
    rw [h3]
    simp only [Bool.or_eq_true, decide_eq_true_eq, core_token.covers, hh]
    constructor
    · rintro (h4 | h4)
      · exact Or.inl h4
      · exact Or.inr ⟨h4.2.2.1, h4.2.2.2, h4.1, h4.2.1⟩
    · rintro (h4 | h4)
      · exact Or.inl h4
      · exact Or.inr ⟨h4.2.2.1, h4.2.2.2, h4.1, h4.2.1⟩


theorem strtok_from_piece (tok rest cur : List Char) (h : ∀ c ∈ tok, c ≠ ',') :
    strtok_from (tok ++ rest) cur = strtok_from rest (tok.reverse ++ cur) := by
  induction tok generalizing cur with
  | nil => rfl
  | cons c cs ih =>
    rw [List.cons_append, strtok_from, if_neg (h c (List.mem_cons_self _ _)),
      ih _ (fun x hx => h x (List.mem_cons_of_mem _ hx))]
    simp

theorem intercalate_cons_cons (sep x y : List Char) (l : List (List Char)) :
    List.intercalate sep (x :: y :: l) = x ++ sep ++ List.intercalate sep (y :: l) := by
  simp [List.intercalate, List.intersperse]

theorem intercalate_single (sep x : List Char) : List.intercalate sep [x] = x := by
  simp [List.intercalate, List.intersperse]

theorem strtok_all_intercalate (toks : List (List Char))
    (h : ∀ t ∈ toks, t ≠ [] ∧ ∀ c ∈ t, c ≠ ',') :
    strtok_all (List.intercalate [','] toks) = toks := by
  unfold strtok_all
  induction toks with
  | nil => rfl
  | cons t ts ih =>
    obtain ⟨hne, hc⟩ := h t (List.mem_cons_self _ _)
    have hrev : t.reverse ≠ [] := by simpa using hne
    cases ts with
    | nil =>
      rw [intercalate_single]
      have := strtok_from_piece t [] [] hc
      rw [List.append_nil, List.append_nil] at this
      rw [this, strtok_from, if_neg hrev, List.reverse_reverse]
    | cons u us =>
      rw [intercalate_cons_cons, List.append_assoc, strtok_from_piece t _ [] hc, List.append_nil,
        List.singleton_append, strtok_from, if_pos rfl, if_neg hrev, List.reverse_reverse,
        ih (fun x hx => h x (List.mem_cons_of_mem _ hx))]

theorem token_text_ok (t : core_token) (hv : t.valid) :
    t.text ≠ [] ∧ ∀ c ∈ t.text, c ≠ ',' := by
  obtain ⟨hws, ⟨hne, hd, -⟩, hhi⟩ := hv
  constructor
  · intro h
    rw [core_token.text] at h
    simp only [List.append_eq_nil] at h
    exact hne h.1.2
  · intro c hc
    rw [core_token.text, List.mem_append, List.mem_append] at hc
    rcases hc with (hc | hc) | hc
    · intro e
      rw [e] at hc
      exact absurd (hws _ hc) (by decide)
    · exact (dec_digit_facts c (hd c hc)).2.2.2.2.2
    · cases hh : t.hi with
      | none => rw [hh] at hc; simp at hc
      | some h =>
        rw [hh] at hc hhi
        rw [List.mem_cons] at hc
        rcases hc with hc | hc
        · rw [hc]; decide
        · exact (dec_digit_facts c (hhi.1.2.1 c hc)).2.2.2.2.2

theorem parse_tokens_spec (toks : List core_token) (hv : ∀ t ∈ toks, t.valid) (fuel : Nat)
    (hf : 2 ^ 31 ≤ fuel) (m : cpumask_t) (hm : storage_ok m ∧ max_ok m) :
    ∃ m', parse_tokens fuel (toks.map core_token.text) m = some (0, m') ∧
      (storage_ok m' ∧ max_ok m') ∧
      ∀ c : Int, cpumask_is_set m' c = true ↔
        (cpumask_is_set m c = true ∨ (0 ≤ c ∧ c < 1024 ∧ ∃ t ∈ toks, t.covers c)) := by
  induction toks generalizing m with
  | nil =>
    refine ⟨m, rfl, hm, ?_⟩
    intro c
    simp
  | cons t ts ih =>
    obtain ⟨m1, h1, h2, h3⟩ := parse_token_spec t (hv t (List.mem_cons_self _ _)) fuel hf m hm
    obtain ⟨m2, h4, h5, h6⟩ := ih (fun x hx => hv x (List.mem_cons_of_mem _ hx)) m1 h2
    refine ⟨m2, ?_, h5, ?_⟩
    · rw [List.map_cons, parse_tokens, h1]
      exact h4
    · intro c
      rw [h6, h3]
      constructor
      · rintro ((h7 | ⟨h7, h8, h9⟩) | ⟨h7, h8, u, hu, h9⟩)
        · exact Or.inl h7
        · exact Or.inr ⟨h7, h8, t, List.mem_cons_self _ _, h9⟩
        · exact Or.inr ⟨h7, h8, u, List.mem_cons_of_mem _ hu, h9⟩
      · rintro (h7 | ⟨h7, h8, u, hu, h9⟩)
        · exact Or.inl (Or.inl h7)
        · rcases List.mem_cons.mp hu with rfl | hu
          · exact Or.inl (Or.inr ⟨h7, h8, h9⟩)
          · exact Or.inr ⟨h7, h8, u, hu, h9⟩

theorem parse_core_list_spec (toks : List core_token) (hv : ∀ t ∈ toks, t.valid) (fuel : Nat)
    (hf : 2 ^ 31 ≤ fuel) (m : cpumask_t) (hm : storage_ok m ∧ max_ok m) :
    ∃ m', parse_core_list fuel (List.intercalate [','] (toks.map core_token.text)) m = some (0, m') ∧
      (storage_ok m' ∧ max_ok m') ∧
      ∀ c : Int, cpumask_is_set m' c = true ↔
        (cpumask_is_set m c = true ∨ (0 ≤ c ∧ c < 1024 ∧ ∃ t ∈ toks, t.covers c)) := by
  unfold parse_core_list
  rw [strtok_all_intercalate]
  · exact parse_tokens_spec toks hv fuel hf m hm
  · intro x hx
    obtain ⟨t, ht, rfl⟩ := List.mem_map.mp hx
    exact token_text_ok t (hv t ht)


/-- C3 (as stated, refuted): the token `-5` is a decimal integer below
`2 ^ 31 - 1`, yet it contains a dash and is read as the range from `atoi("") = 0`
to `5`: the call returns `0` with the indices `0 .. 5` set, although no index
of `[0, 1024)` equals `-5`. -/
theorem parse_core_list_negative_token :
    parse_core_list 10 "-5".toList cpumask_init = some (0, run_set_core [0, 1, 2, 3, 4, 5]) ∧
    ¬ (∀ c : Int, cpumask_is_set (run_set_core [0, 1, 2, 3, 4, 5]) c = true ↔
        (0 ≤ c ∧ c < 1024 ∧ c = -5)) := by
  refine ⟨by decide, ?_⟩
  intro h
  have := (h 0).mp (by decide)
  omega

/-- C3 (amended): for a core list made of comma-separated tokens, each white
space followed by an unsigned decimal integer `n` (digits only) or a range
`a-b` of two such integers with `a ≤ b`, all values below `2 ^ 31 - 1`,
`parse_core_list` on a fresh mask returns `0` (with any fuel of at least
`2 ^ 31` for its range loops) and afterwards `cpumask_is_set c` holds exactly
for the `c` in `[0, 1024)` named by a token. -/
theorem parse_core_list_sets_named_cores (toks : List core_token) (hv : ∀ t ∈ toks, t.valid)
    (fuel : Nat) (hf : 2 ^ 31 ≤ fuel) :
    ∃ m', parse_core_list fuel (List.intercalate [','] (toks.map core_token.text)) cpumask_init =
        some (0, m') ∧
      ∀ c : Int, cpumask_is_set m' c = true ↔ (0 ≤ c ∧ c < 1024 ∧ ∃ t ∈ toks, t.covers c) := by
  obtain ⟨m', h1, -, h3⟩ := parse_core_list_spec toks hv fuel hf cpumask_init
    ⟨storage_ok_init, max_ok_init⟩
  refine ⟨m', h1, ?_⟩
  intro c
  rw [h3, is_set_init]
  simp


theorem parse_core_list_sets_named_cores_witness :
    (∀ t ∈ [core_token.mk [' '] ['4'] (some ['6']), core_token.mk [] ['9'] none], t.valid) ∧
    2 ^ 31 ≤ 2 ^ 31 ∧
    List.intercalate [',']
      ([core_token.mk [' '] ['4'] (some ['6']), core_token.mk [] ['9'] none].map core_token.text) =
      " 4-6,9".toList ∧
    ∃ m', parse_core_list (2 ^ 31) (List.intercalate [',']
        ([core_token.mk [' '] ['4'] (some ['6']), core_token.mk [] ['9'] none].map core_token.text))
        cpumask_init = some (0, m') ∧
      ∀ c : Int, cpumask_is_set m' c = true ↔
        (0 ≤ c ∧ c < 1024 ∧
          ∃ t ∈ [core_token.mk [' '] ['4'] (some ['6']), core_token.mk [] ['9'] none], t.covers c) :=
  have hv : ∀ t ∈ [core_token.mk [' '] ['4'] (some ['6']), core_token.mk [] ['9'] none],
      t.valid := by
    intro t ht
    simp only [List.mem_cons, List.mem_singleton, List.not_mem_nil, or_false] at ht
    rcases ht with rfl | rfl
    · exact ⟨by decide, ⟨by decide, by decide, by decide⟩, ⟨by decide, by decide, by decide⟩,
        by decide⟩
    · exact ⟨by decide, ⟨by decide, by decide, by decide⟩, trivial⟩
  ⟨hv, le_refl _, by decide, parse_core_list_sets_named_cores _ hv (2 ^ 31) (le_refl _)⟩


/-! ## `print_core_list` -/

theorem repr_toList (n : Nat) : (Nat.repr n).toList = Nat.toDigits 10 n := rfl

theorem fmt_d_nat (n : Nat) : fmt_d (n : Int) = (Nat.repr n).toList := by
  rw [fmt_d, if_neg (by omega), Int.toNat_natCast, repr_toList]

theorem fmt_run_eq (a b : Nat) : fmt_run (a : Int) (b : Int) = run_text (a, b) := by
  unfold fmt_run run_text
  simp only [fmt_d_nat]
  by_cases h1 : b = a
  · subst h1; simp
  · have h1' : ¬ ((a : Int) = (b : Int)) := by omega
    rw [if_neg h1', if_neg h1]
    by_cases h2 : b = a + 1
    · rw [if_pos h2, if_pos (by omega)]
    · rw [if_neg h2, if_neg (by omega)]

theorem intercalate_snoc (sep : List Char) (l : List (List Char)) (x : List Char) :
    List.intercalate sep (l ++ [x]) =
      List.intercalate sep l ++ (if l = [] then [] else sep) ++ x := by
  induction l with
  | nil => simp [List.intercalate, List.intersperse]
  | cons y ys ih =>
    cases ys with
    | nil => simp [List.intercalate, List.intersperse]
    | cons z zs =>
      rw [List.cons_append, List.cons_append, intercalate_cons_cons, ← List.cons_append, ih,
        intercalate_cons_cons]
      simp

theorem print_core_step_eq (s : cpumask_t) (hmax : max_ok s) (st : list_state) (i : Nat) :
    print_core_step s st i =
      if cpumask_is_set s (i : Int) = true then
        if st.range_start = -1 then { st with range_start := i, range_end := i }
        else { st with range_end := i }
      else
        if st.range_start ≠ -1 then
          { first := false, range_start := -1, range_end := st.range_end,
            out := st.out ++ (if st.first then [] else [',']) ++ fmt_run st.range_start st.range_end }
        else st := by
  unfold print_core_step
  have : (if (i : Int) ≤ s.max_core then cpumask_is_set s (i : Int) else false) =
      cpumask_is_set s (i : Int) := by
    by_cases h : (i : Int) ≤ s.max_core
    · rw [if_pos h]
    · rw [if_neg h, hmax.2 _ (by omega)]
  simp only [this]


theorem print_inv_init (s : cpumask_t) :
    print_inv s 0 { first := true, range_start := -1, range_end := -1, out := [] } [] := by
  refine ⟨rfl, by simp, by simp, List.Pairwise.nil, Or.inl ⟨rfl, ?_, ?_⟩⟩
  · cases h : cpumask_is_set s ((0 : Nat) - 1 : Int)
    · rfl
    · have := is_set_range s _ h; omega
  · intro j hj; omega

theorem print_inv_step (s : cpumask_t) (hmax : max_ok s) (i : Nat) (st : list_state)
    (done : List (Nat × Nat)) (h : print_inv s i st done) :
    ∃ done', print_inv s (i + 1) (print_core_step s st i) done' := by
  obtain ⟨hout, hfirst, hruns, hsorted, hcur⟩ := h
  rw [print_core_step_eq s hmax]
  have hcast : ((i + 1 : Nat) : Int) - 1 = (i : Int) := by omega
  by_cases hp : cpumask_is_set s (i : Int) = true
  · rw [if_pos hp]
    refine ⟨done, ?_⟩
    rcases hcur with ⟨hs, hprev, hcov⟩ | ⟨a, hs, he, hai, hall, hbefore, hgap, hcov⟩
    · rw [if_pos hs]
      refine ⟨hout, hfirst, fun r hr => ⟨(hruns r hr).1, by have := (hruns r hr).2; omega⟩,
        hsorted, Or.inr ⟨i, rfl, by simp, by omega, ?_, hprev, ?_, hcov⟩⟩
      · intro j h1 h2
        have : j = i := by omega
        rw [this]; exact hp
      · intro r hr
        exact (hruns r hr).2
    · rw [if_neg (by rw [hs]; omega)]
      refine ⟨hout, hfirst, fun r hr => ⟨(hruns r hr).1, by have := (hruns r hr).2; omega⟩,
        hsorted, Or.inr ⟨a, hs, by simp, by omega, ?_, hbefore, hgap, hcov⟩⟩
      intro j h1 h2
      by_cases hj : j = i
      · rw [hj]; exact hp
      · exact hall j h1 (by omega)
  · rw [if_neg hp]
    have hp' : cpumask_is_set s (i : Int) = false := by simpa using hp
    rcases hcur with ⟨hs, hprev, hcov⟩ | ⟨a, hs, he, hai, hall, hbefore, hgap, hcov⟩
    · rw [if_neg (by simp [hs])]
      refine ⟨done, hout, hfirst, fun r hr => ⟨(hruns r hr).1, by have := (hruns r hr).2; omega⟩,
        hsorted, Or.inl ⟨hs, by rw [hcast]; exact hp', ?_⟩⟩
      intro j h1 h2
      by_cases hj : j = i
      · rw [hj, hp'] at h2; exact absurd h2 (by decide)
      · exact hcov j (by omega) h2
    · rw [if_pos (by rw [hs]; omega)]
      obtain ⟨k, hk⟩ : ∃ k : Nat, i = k + 1 := ⟨i - 1, by omega⟩
      have hend : st.range_end = (k : Int) := by rw [he, hk]; omega
      have hrun : is_maximal_run s (a, k) := by
        refine ⟨by show a ≤ k; omega, ?_, hbefore, ?_⟩
        · intro j h1 h2
          exact hall j h1 (by show j < i; have : j ≤ k := h2; omega)
        · show cpumask_is_set s ((k : Int) + 1) = false
          have : (k : Int) + 1 = (i : Int) := by omega
          rw [this]; exact hp'
      refine ⟨done ++ [(a, k)], ?_, ?_, ?_, ?_, Or.inl ⟨rfl, by rw [hcast]; exact hp', ?_⟩⟩
      · show st.out ++ (if st.first = true then [] else [',']) ++ fmt_run st.range_start st.range_end =
          List.intercalate [','] ((done ++ [(a, k)]).map run_text)
        rw [List.map_append, List.map_singleton, intercalate_snoc, hs, hend, fmt_run_eq, ← hout]
        congr 2
        by_cases hf : st.first = true
        · rw [if_pos hf, if_pos (by rw [List.map_eq_nil_iff]; exact hfirst.mp hf)]
        · rw [if_neg hf, if_neg (by rw [List.map_eq_nil_iff]; exact fun h => hf (hfirst.mpr h))]
      · simp
      · intro r hr
        rcases List.mem_append.mp hr with hr | hr
        · exact ⟨(hruns r hr).1, by have := (hruns r hr).2; omega⟩
        · rw [List.mem_singleton] at hr
          rw [hr]
          exact ⟨hrun, by show k + 1 < i + 1; omega⟩
      · rw [List.pairwise_append]
        refine ⟨hsorted, List.pairwise_singleton _ _, ?_⟩
        intro r hr r' hr'
        rw [List.mem_singleton] at hr'
        rw [hr']
        have := hgap r hr
        show r.2 < a
        omega
      · intro j h1 h2
        by_cases hj : j < a
        · obtain ⟨r, hr, hr2⟩ := hcov j hj h2
          exact ⟨r, List.mem_append_left _ hr, hr2⟩
        · refine ⟨(a, k), List.mem_append_right _ (List.mem_singleton_self _), ?_⟩
          have : j ≠ i := by
            intro e; rw [e, hp'] at h2; exact absurd h2 (by decide)
          show a ≤ j ∧ j ≤ k
          omega

theorem print_inv_loop (s : cpumask_t) (hmax : max_ok s) (n : Nat) :
    ∃ done, print_inv s n ((List.range n).foldl (print_core_step s)
      { first := true, range_start := -1, range_end := -1, out := [] }) done := by
  induction n with
  | zero => exact ⟨[], print_inv_init s⟩
  | succ n ih =>
    obtain ⟨done, hd⟩ := ih
    rw [List.range_succ, List.foldl_append]
    exact print_inv_step s hmax n _ done hd


/-- For a mask that satisfies the invariants and has a member, the loop of
`print_core_list` ends with the runs of the mask written and none pending. -/
theorem print_core_list_runs (s : cpumask_t) (hmax : max_ok s) (hne : s.max_core ≠ -1) :
    ∃ runs : List (Nat × Nat), is_run_list s runs ∧ runs ≠ [] ∧
      print_core_list s = List.intercalate [','] (runs.map run_text) ++ ['\n'] := by
  obtain ⟨h0, h1, -⟩ := top_word_ne_zero s hmax hne
  obtain ⟨n, hn⟩ : ∃ n : Nat, s.max_core = (n : Int) := ⟨s.max_core.toNat, by omega⟩
  obtain ⟨done, hout, hfirst, hruns, hsorted, hcur⟩ := print_inv_loop s hmax (n + 2)
  have hlast : cpumask_is_set s ((n + 1 : Nat) : Int) = false := hmax.2 _ (by omega)
  have hcov : ∀ j : Nat, cpumask_is_set s (j : Int) = true → ∃ r ∈ done, r.1 ≤ j ∧ j ≤ r.2 := by
    intro j hj
    have hjn : j ≤ n := by
      by_contra hgt
      rw [hmax.2 (j : Int) (by omega)] at hj
      exact absurd hj (by decide)
    rcases hcur with ⟨-, -, hc⟩ | ⟨a, -, -, hai, hall, -⟩
    · exact hc j (by omega) hj
    · have := hall (n + 1) (by omega) (by omega)
      rw [hlast] at this
      exact absurd this (by decide)
  have hmem : cpumask_is_set s (n : Int) = true := by
    rw [← hn]; exact hmax.1.resolve_left hne
  have hdone : done ≠ [] := by
    obtain ⟨r, hr, -⟩ := hcov n hmem
    exact List.ne_nil_of_mem hr
  refine ⟨done, ⟨fun r hr => (hruns r hr).1, hsorted, hcov⟩, hdone, ?_⟩
  unfold print_core_list print_core_loop
  have hrange : (s.max_core + 2).toNat = n + 2 := by omega
  rw [hrange]
  simp only []
  rw [if_neg (fun hf => hdone (hfirst.mp hf)), hout]

/-- C5. For a reachable mask with a member, the text `print_core_list` writes
before its newline is the list of the maximal runs of set indices in
increasing order, joined by `,`, a run from `a` to `b` written `a`, `a,b` or
`a-b` as it has one, two or more members; parsing `4-5` and printing gives
`4,5`, parsing `4-6` and printing gives `4-6`. -/
theorem print_core_list_maximal_runs (cores : List Int) (s : cpumask_t)
    (hs : s = run_set_core cores) (hne : s.max_core ≠ -1) :
    (∃ runs : List (Nat × Nat), is_run_list s runs ∧ runs ≠ [] ∧
      print_core_list s = List.intercalate [','] (runs.map run_text) ++ ['\n']) ∧
    (∀ a b : Nat, run_text (a, b) =
      if b = a then (Nat.repr a).toList
      else if b = a + 1 then (Nat.repr a).toList ++ [','] ++ (Nat.repr b).toList
      else (Nat.repr a).toList ++ ['-'] ++ (Nat.repr b).toList) ∧
    (∃ m, parse_core_list 10 "4-5".toList cpumask_init = some (0, m) ∧
      print_core_list m = "4,5\n".toList) ∧
    (∃ m, parse_core_list 10 "4-6".toList cpumask_init = some (0, m) ∧
      print_core_list m = "4-6\n".toList) := by
  subst hs
  refine ⟨print_core_list_runs _ (reachable_inv cores).2 hne, fun a b => rfl, ?_, ?_⟩
  · exact ⟨run_set_core [4, 5], by decide, by decide⟩
  · exact ⟨run_set_core [4, 5, 6], by decide, by decide⟩

theorem print_core_list_maximal_runs_witness :
    (run_set_core [7, 3, 4, 2000, 9, 8, 0]).max_core ≠ -1 ∧
    print_core_list (run_set_core [7, 3, 4, 2000, 9, 8, 0]) = "0,3,4,7-9\n".toList ∧
    ∃ runs : List (Nat × Nat), is_run_list (run_set_core [7, 3, 4, 2000, 9, 8, 0]) runs ∧
      runs ≠ [] ∧
      print_core_list (run_set_core [7, 3, 4, 2000, 9, 8, 0]) =
        List.intercalate [','] (runs.map run_text) ++ ['\n'] :=
  ⟨by decide, by decide,
    (print_core_list_maximal_runs [7, 3, 4, 2000, 9, 8, 0] _ rfl (by decide)).1⟩


/-! ## Printing a core list and parsing it back -/

theorem dec_value_append (ds : List Char) (c : Char) :
    dec_value (ds ++ [c]) = 10 * dec_value ds + dec_digit_value c := by
  simp [dec_value, List.foldl_append]

theorem dec_digitChar : ∀ d : Nat, d < 10 →
    dec_digit_value (Nat.digitChar d) = d ∧ is_dec_digit (Nat.digitChar d) = true := by
  decide

theorem dec_value_toDigits (n : Nat) : dec_value (Nat.toDigits 10 n) = n := by
  induction n using Nat.strong_induction_on with
  | _ n ih =>
    by_cases h : n / 10 = 0
    · rw [toDigits_small 10 n h]
      show 10 * 0 + dec_digit_value (Nat.digitChar (n % 10)) = n
      rw [(dec_digitChar _ (Nat.mod_lt _ (by decide))).1]
      omega
    · rw [toDigits_step 10 (by decide) n h, dec_value_append, ih (n / 10) (by omega),
        (dec_digitChar _ (Nat.mod_lt _ (by decide))).1]
      omega

theorem toDigits_dec (n : Nat) : ∀ c ∈ Nat.toDigits 10 n, is_dec_digit c = true := by
  induction n using Nat.strong_induction_on with
  | _ n ih =>
    by_cases h : n / 10 = 0
    · rw [toDigits_small 10 n h]
      intro c hc
      rw [List.mem_singleton] at hc
      rw [hc]; exact (dec_digitChar _ (Nat.mod_lt _ (by decide))).2
    · rw [toDigits_step 10 (by decide) n h]
      intro c hc
      rw [List.mem_append, List.mem_singleton] at hc
      rcases hc with hc | hc
      · exact ih (n / 10) (by omega) c hc
      · rw [hc]; exact (dec_digitChar _ (Nat.mod_lt _ (by decide))).2

theorem repr_is_dec_number (n : Nat) (hn : n < 2 ^ 31 - 1) :
    is_dec_number (Nat.repr n).toList ∧ dec_value (Nat.repr n).toList = n := by
  rw [repr_toList]
  exact ⟨⟨toDigits_ne_nil 10 (by decide) n, toDigits_dec n, by rw [dec_value_toDigits]; exact hn⟩,
    dec_value_toDigits n⟩

/-- Two masks that satisfy the invariants and have the same members are equal. -/
theorem mask_ext (s t : cpumask_t) (hs : storage_ok s ∧ max_ok s) (ht : storage_ok t ∧ max_ok t)
    (h : ∀ c : Int, cpumask_is_set s c = cpumask_is_set t c) : s = t := by
  have hwords : s.mask = t.mask := by
    apply List.ext_getElem (by rw [hs.1.1, ht.1.1])
    intro w h1 h2
    apply Nat.eq_of_testBit_eq
    intro b
    by_cases hb : b < 64
    · have hw : w < 16 := by rw [← hs.1.1]; exact h1
      have := h ((64 * w + b : Nat) : Int)
      rw [is_set_eq, is_set_eq, Int.toNat_natCast] at this
      have e1 : (64 * w + b) / 64 = w := by omega
      have e2 : (64 * w + b) % 64 = b := by omega
      have hr : (0 : Int) ≤ ((64 * w + b : Nat) : Int) ∧ ((64 * w + b : Nat) : Int) < 1024 := by
        omega
      rw [e1, e2, decide_eq_true hr, Bool.true_and, Bool.true_and, List.getD_eq_getElem?_getD,
        List.getD_eq_getElem?_getD, List.getElem?_eq_getElem h1, List.getElem?_eq_getElem h2] at this
      exact this
    · have h64 : (2 : Nat) ^ 64 ≤ 2 ^ b := Nat.pow_le_pow_right (by decide) (by omega)
      rw [Nat.testBit_lt_two_pow (lt_of_lt_of_le (hs.1.2 _ (List.getElem_mem _)) h64),
        Nat.testBit_lt_two_pow (lt_of_lt_of_le (ht.1.2 _ (List.getElem_mem _)) h64)]
  have hmax : s.max_core = t.max_core := by
    have key : ∀ a b : cpumask_t, max_ok a → max_ok b →
        (∀ c : Int, cpumask_is_set a c = cpumask_is_set b c) → a.max_core ≤ b.max_core := by
      intro a b ha hb hab
      have hb1 := max_core_bounds b hb
      rcases ha.1 with h1 | h1
      · omega
      · by_contra hgt
        rw [hab, hb.2 _ (not_le.mp hgt)] at h1
        exact absurd h1 (by decide)
    exact le_antisymm (key s t hs.2 ht.2 h) (key t s ht.2 hs.2 (fun c => (h c).symm))
  cases s; cases t
  simp only at hwords hmax
  rw [hwords, hmax]


theorem intercalate_append (sep : List Char) (l1 l2 : List (List Char)) (h1 : l1 ≠ [])
    (h2 : l2 ≠ []) :
    List.intercalate sep (l1 ++ l2) =
      List.intercalate sep l1 ++ sep ++ List.intercalate sep l2 := by
  induction l1 with
  | nil => exact absurd rfl h1
  | cons x xs ih =>
    cases xs with
    | nil =>
      obtain ⟨y, ys, rfl⟩ := List.exists_cons_of_ne_nil h2
      rw [List.singleton_append, intercalate_cons_cons, intercalate_single]
    | cons z zs =>
      rw [List.cons_append, List.cons_append, intercalate_cons_cons, ← List.cons_append,
        ih (by simp), intercalate_cons_cons]
      simp

theorem run_tokens_ne_nil (r : Nat × Nat) : run_tokens r ≠ [] := by
  unfold run_tokens
  split
  · simp
  · split <;> simp

theorem run_text_tokens (r : Nat × Nat) :
    run_text r = List.intercalate [','] ((run_tokens r).map core_token.text) := by
  unfold run_text run_tokens
  by_cases h1 : r.2 = r.1
  · rw [if_pos h1, if_pos h1]
    simp [intercalate_single, core_token.text]
  · rw [if_neg h1, if_neg h1]
    by_cases h2 : r.2 = r.1 + 1
    · rw [if_pos h2, if_pos h2]
      simp [intercalate_cons_cons, intercalate_single, core_token.text]
    · rw [if_neg h2, if_neg h2]
      simp [intercalate_single, core_token.text]

theorem runs_text_tokens (runs : List (Nat × Nat)) :
    List.intercalate [','] (runs.map run_text) =
      List.intercalate [','] ((runs.flatMap run_tokens).map core_token.text) := by
  induction runs with
  | nil => rfl
  | cons r rs ih =>
    cases rs with
    | nil =>
      rw [List.map_singleton, intercalate_single, run_text_tokens]
      simp
    | cons r' rs' =>
      have e1 : (r :: r' :: rs').flatMap run_tokens =
          run_tokens r ++ (r' :: rs').flatMap run_tokens := List.flatMap_cons _ _ _
      have hne1 : (run_tokens r).map core_token.text ≠ [] := by
        simpa using run_tokens_ne_nil r
      have hne2 : ((r' :: rs').flatMap run_tokens).map core_token.text ≠ [] := by
        have e2 : (r' :: rs').flatMap run_tokens = run_tokens r' ++ rs'.flatMap run_tokens :=
          List.flatMap_cons _ _ _
        rw [e2, List.map_append]
        exact List.append_ne_nil_of_left_ne_nil (by simpa using run_tokens_ne_nil r') _
      rw [e1, List.map_append, intercalate_append _ _ _ hne1 hne2, ← ih, ← run_text_tokens]
      exact intercalate_cons_cons _ _ _ _

theorem run_tokens_valid (r : Nat × Nat) (h1 : r.1 ≤ r.2) (h2 : r.2 < 1024) :
    ∀ t ∈ run_tokens r, t.valid := by
  have ha := repr_is_dec_number r.1 (by omega)
  have hb := repr_is_dec_number r.2 (by omega)
  intro t ht
  unfold run_tokens at ht
  split at ht
  · rw [List.mem_singleton] at ht
    rw [ht]
    exact ⟨by simp, ha.1, trivial⟩
  · split at ht
    · simp only [List.mem_cons, List.mem_singleton, List.not_mem_nil, or_false] at ht
      rcases ht with rfl | rfl
      · exact ⟨by simp, ha.1, trivial⟩
      · exact ⟨by simp, hb.1, trivial⟩
    · rw [List.mem_singleton] at ht
      rw [ht]
      refine ⟨by simp, ha.1, hb.1, ?_⟩
      show dec_value (Nat.repr r.1).toList ≤ dec_value (Nat.repr r.2).toList
      rw [ha.2, hb.2]; exact h1

theorem run_tokens_covers (r : Nat × Nat) (h1 : r.1 ≤ r.2) (h2 : r.2 < 1024) (c : Int) :
    (∃ t ∈ run_tokens r, t.covers c) ↔ ((r.1 : Int) ≤ c ∧ c ≤ (r.2 : Int)) := by
  have ha := (repr_is_dec_number r.1 (by omega)).2
  have hb := (repr_is_dec_number r.2 (by omega)).2
  unfold run_tokens
  by_cases e1 : r.2 = r.1
  · rw [if_pos e1]
    simp only [List.mem_singleton, exists_eq_left, core_token.covers, ha]
    omega
  · rw [if_neg e1]
    by_cases e2 : r.2 = r.1 + 1
    · rw [if_pos e2]
      simp only [List.mem_cons, List.mem_singleton, List.not_mem_nil, or_false, exists_eq_or_imp,
        exists_eq_left, core_token.covers, ha, hb]
      omega
    · rw [if_neg e2]
      simp only [List.mem_singleton, exists_eq_left, core_token.covers, ha, hb]


theorem strtol_digits_stop (ds : List Char) (hd : ∀ c ∈ ds, is_dec_digit c = true) (x : Char)
    (hx : isdigit x = false) (r : List Char) (acc : Nat) :
    strtol_digits (ds ++ x :: r) acc = strtol_digits ds acc := by
  induction ds generalizing acc with
  | nil => simp [strtol_digits, hx]
  | cons c cs ih =>
    obtain ⟨h1, -⟩ := dec_digit_facts c (hd c (List.mem_cons_self _ _))
    rw [List.cons_append, strtol_digits, strtol_digits, if_pos h1, if_pos h1,
      ih (fun y hy => hd y (List.mem_cons_of_mem _ hy))]

theorem atoi_digits_newline (ds : List Char) (hne : ds ≠ [])
    (hd : ∀ c ∈ ds, is_dec_digit c = true) : atoi (ds ++ ['\n']) = atoi ds := by
  obtain ⟨c, cs, rfl⟩ := List.exists_cons_of_ne_nil hne
  obtain ⟨-, -, h3, h4, h5, -⟩ := dec_digit_facts c (hd c (List.mem_cons_self _ _))
  have e1 : strtol10 (c :: cs ++ ['\n']) = clamp_long (strtol_digits (c :: cs ++ ['\n']) 0) := by
    unfold strtol10
    rw [List.cons_append, List.dropWhile_cons, h3]
    simp only [Bool.false_eq_true, if_false]
    split
    · rename_i heq
      exact absurd (List.cons.inj heq).1 h4
    · rename_i heq
      exact absurd (List.cons.inj heq).1 h5
    · rfl
  have e2 : strtol10 (c :: cs) = clamp_long (strtol_digits (c :: cs) 0) := by
    unfold strtol10
    rw [List.dropWhile_cons, h3]
    simp only [Bool.false_eq_true, if_false]
    split
    · rename_i heq
      exact absurd (List.cons.inj heq).1 h4
    · rename_i heq
      exact absurd (List.cons.inj heq).1 h5
    · rfl
  rw [atoi, atoi, e1, e2, strtol_digits_stop (c :: cs) hd '\n' (by decide)]

theorem parse_token_newline (t : core_token) (hv : t.valid) (fuel : Nat) (m : cpumask_t) :
    parse_token fuel (t.text ++ ['\n']) m = parse_token fuel t.text m := by
  have hdrop := token_dropWhile t hv
  obtain ⟨hws, ⟨hne, hd, hlt⟩, hhi⟩ := hv
  have hdrop' : (t.text ++ ['\n']).dropWhile isspace =
      t.lo ++ (match t.hi with | none => [] | some h => '-' :: h) ++ ['\n'] := by
    obtain ⟨c, cs, hlo⟩ := List.exists_cons_of_ne_nil hne
    have := (dec_digit_facts c (hd c (by rw [hlo]; exact List.mem_cons_self _ _))).2.2.1
    rw [core_token.text, List.append_assoc, List.append_assoc,
      dropWhile_append_all isspace _ _ hws, hlo, List.cons_append, List.dropWhile_cons, this]
    generalize t.hi = hi
    cases hi <;> simp
  unfold parse_token
  simp only [hdrop, hdrop']
  cases hh : t.hi with
  | none =>
    simp only [List.append_nil]
    have hnd : ¬ ('-' ∈ t.lo) := fun hmem => (dec_digit_facts _ (hd _ hmem)).2.2.2.1 rfl
    have hnd' : ¬ ('-' ∈ t.lo ++ ['\n']) := by
      rw [List.mem_append, List.mem_singleton]
      rintro (h | h)
      · exact hnd h
      · exact absurd h (by decide)
    rw [if_neg hnd, if_neg hnd', atoi_digits_newline t.lo hne hd]
  | some h =>
    rw [hh] at hhi
    obtain ⟨⟨hne', hd', hlt'⟩, hle⟩ := hhi
    have e : t.lo ++ '-' :: h ++ ['\n'] = t.lo ++ '-' :: (h ++ ['\n']) := by simp
    simp only []
    rw [e, if_pos (show '-' ∈ t.lo ++ '-' :: (h ++ ['\n']) by simp),
      if_pos (show '-' ∈ t.lo ++ '-' :: h by simp),
      takeWhile_until _ _ _ _ (digits_no_dash t.lo hd) (by decide),
      takeWhile_until _ _ _ _ (digits_no_dash t.lo hd) (by decide),
      dropWhile_until _ _ _ _ (digits_no_dash t.lo hd) (by decide),
      dropWhile_until _ _ _ _ (digits_no_dash t.lo hd) (by decide), List.drop_one, List.drop_one,
      List.tail_cons, List.tail_cons, atoi_digits_newline h hne' hd']

theorem parse_tokens_newline (ts : List core_token) (t : core_token) (hv : t.valid) (fuel : Nat)
    (m : cpumask_t) :
    parse_tokens fuel (ts.map core_token.text ++ [t.text ++ ['\n']]) m =
      parse_tokens fuel ((ts ++ [t]).map core_token.text) m := by
  induction ts generalizing m with
  | nil =>
    simp only [List.map_nil, List.nil_append, List.map_cons, parse_tokens,
      parse_token_newline t hv]
  | cons u us ih =>
    simp only [List.map_cons, List.cons_append, parse_tokens]
    cases parse_token fuel u.text m with
    | none => rfl
    | some p =>
      obtain ⟨b, m1⟩ := p
      cases b
      · exact ih m1
      · rfl

theorem parse_core_list_newline (toks : List core_token) (hv : ∀ t ∈ toks, t.valid)
    (hne : toks ≠ []) (fuel : Nat) (m : cpumask_t) :
    parse_core_list fuel (List.intercalate [','] (toks.map core_token.text) ++ ['\n']) m =
      parse_core_list fuel (List.intercalate [','] (toks.map core_token.text)) m := by
  obtain ⟨ts, t, rfl⟩ : ∃ ts t, toks = ts ++ [t] :=
    ⟨toks.dropLast, toks.getLast hne, (List.dropLast_append_getLast hne).symm⟩
  have htv : t.valid := hv t (by simp)
  have hnl : List.intercalate [','] ((ts ++ [t]).map core_token.text) ++ ['\n'] =
      List.intercalate [','] (ts.map core_token.text ++ [t.text ++ ['\n']]) := by
    rw [List.map_append, List.map_singleton, intercalate_snoc, intercalate_snoc]
    simp
  have hok : ∀ x ∈ ts.map core_token.text ++ [t.text ++ ['\n']], x ≠ [] ∧ ∀ c ∈ x, c ≠ ',' := by
    intro x hx
    rcases List.mem_append.mp hx with hx | hx
    · obtain ⟨u, hu, rfl⟩ := List.mem_map.mp hx
      exact token_text_ok u (hv u (List.mem_append_left _ hu))
    · rw [List.mem_singleton] at hx
      rw [hx]
      refine ⟨by simp, ?_⟩
      intro c hc
      rcases List.mem_append.mp hc with hc | hc
      · exact (token_text_ok t htv).2 c hc
      · rw [List.mem_singleton] at hc
        rw [hc]; decide
  have hok' : ∀ x ∈ (ts ++ [t]).map core_token.text, x ≠ [] ∧ ∀ c ∈ x, c ≠ ',' := by
    intro x hx
    obtain ⟨u, hu, rfl⟩ := List.mem_map.mp hx
    exact token_text_ok u (hv u hu)
  rw [hnl, parse_core_list, parse_core_list, strtok_all_intercalate _ hok,
    strtok_all_intercalate _ hok', parse_tokens_newline ts t htv]

/-- C7. For a reachable mask `s` with a member, the text that
`print_core_list s` writes (taken without or with its final newline), given to
`parse_core_list` on a fresh mask, returns `0` and produces a mask equal to
`s`, words and `max_core` alike; printing that mask gives the same text again. -/
theorem print_then_parse_core_list (cores : List Int) (s : cpumask_t)
    (hs : s = run_set_core cores) (hne : s.max_core ≠ -1) (fuel : Nat) (hf : 2 ^ 31 ≤ fuel) :
    ∃ (text : List Char) (m : cpumask_t), print_core_list s = text ++ ['\n'] ∧
      parse_core_list fuel text cpumask_init = some (0, m) ∧
      parse_core_list fuel (text ++ ['\n']) cpumask_init = some (0, m) ∧
      m = s ∧ m.mask = s.mask ∧ m.max_core = s.max_core ∧
      print_core_list m = text ++ ['\n'] := by
  subst hs
  obtain ⟨hst, hmax⟩ := reachable_inv cores
  obtain ⟨runs, ⟨hr1, hr2, hr3⟩, hrne, hprint⟩ := print_core_list_runs _ hmax hne
  have hbound : ∀ r ∈ runs, r.1 ≤ r.2 ∧ r.2 < 1024 := by
    intro r hr
    obtain ⟨h1, h2, -⟩ := hr1 r hr
    have := is_set_range _ _ (h2 r.2 h1 (le_refl _))
    exact ⟨h1, by omega⟩
  have hvalid : ∀ t ∈ runs.flatMap run_tokens, t.valid := by
    intro t ht
    obtain ⟨r, hr, htr⟩ := List.mem_flatMap.mp ht
    exact run_tokens_valid r (hbound r hr).1 (hbound r hr).2 t htr
  have htne : runs.flatMap run_tokens ≠ [] := by
    obtain ⟨r, rs, rfl⟩ := List.exists_cons_of_ne_nil hrne
    have e : (r :: rs).flatMap run_tokens = run_tokens r ++ rs.flatMap run_tokens :=
      List.flatMap_cons _ _ _
    rw [e]
    exact List.append_ne_nil_of_left_ne_nil (run_tokens_ne_nil r) _
  obtain ⟨m', hp1, hp2, hp3⟩ := parse_core_list_spec (runs.flatMap run_tokens) hvalid fuel hf
    cpumask_init ⟨storage_ok_init, max_ok_init⟩
  have hm : m' = run_set_core cores := by
    apply mask_ext m' _ hp2 ⟨hst, hmax⟩
    intro c
    rw [Bool.eq_iff_iff, hp3, is_set_init]
    constructor
    · rintro (h | ⟨h0, h1, t, ht, hc⟩)
      · exact absurd h (by decide)
      · obtain ⟨r, hr, htr⟩ := List.mem_flatMap.mp ht
        have hcr := (run_tokens_covers r (hbound r hr).1 (hbound r hr).2 c).mp ⟨t, htr, hc⟩
        have := (hr1 r hr).2.1 c.toNat (by omega) (by omega)
        rwa [Int.toNat_of_nonneg h0] at this
    · intro hc
      have hrng := is_set_range _ _ hc
      right
      refine ⟨hrng.1, hrng.2, ?_⟩
      have hc' : cpumask_is_set (run_set_core cores) ((c.toNat : Nat) : Int) = true := by
        rwa [Int.toNat_of_nonneg hrng.1]
      obtain ⟨r, hr, h1, h2⟩ := hr3 c.toNat hc'
      obtain ⟨t, ht, htc⟩ := (run_tokens_covers r (hbound r hr).1 (hbound r hr).2 c).mpr
        ⟨by omega, by omega⟩
      exact ⟨t, List.mem_flatMap.mpr ⟨r, hr, ht⟩, htc⟩
  have hnl := parse_core_list_newline (runs.flatMap run_tokens) hvalid htne fuel cpumask_init
  rw [hp1, ← runs_text_tokens] at hnl
  rw [← runs_text_tokens] at hp1
  exact ⟨_, m', hprint, hp1, hnl, hm, by rw [hm], by rw [hm], by rw [hm]; exact hprint⟩

theorem print_then_parse_core_list_witness :
    (run_set_core [7, 3, 4, 2000, 9, 8, 0]).max_core ≠ -1 ∧ 2 ^ 31 ≤ 2 ^ 31 ∧
    print_core_list (run_set_core [7, 3, 4, 2000, 9, 8, 0]) = "0,3,4,7-9".toList ++ ['\n'] ∧
    ∃ (text : List Char) (m : cpumask_t),
      print_core_list (run_set_core [7, 3, 4, 2000, 9, 8, 0]) = text ++ ['\n'] ∧
      parse_core_list (2 ^ 31) text cpumask_init = some (0, m) ∧
      parse_core_list (2 ^ 31) (text ++ ['\n']) cpumask_init = some (0, m) ∧
      m = run_set_core [7, 3, 4, 2000, 9, 8, 0] ∧
      m.mask = (run_set_core [7, 3, 4, 2000, 9, 8, 0]).mask ∧
      m.max_core = (run_set_core [7, 3, 4, 2000, 9, 8, 0]).max_core ∧
      print_core_list m = text ++ ['\n'] :=
  ⟨by decide, le_refl _, by decide,
    print_then_parse_core_list [7, 3, 4, 2000, 9, 8, 0] _ rfl (by decide) (2 ^ 31) (le_refl _)⟩

/-! ## Character classes -/

theorem char_le_iff (a b : Char) : a ≤ b ↔ a.toNat ≤ b.toNat := by
  rfl

theorem char_eq_ofNat (c : Char) : c = Char.ofNat c.toNat := (Char.ofNat_toNat c).symm

theorem is_hex_digit_of_range (c : Char)
    (h : (48 ≤ c.toNat ∧ c.toNat ≤ 57) ∨ (97 ≤ c.toNat ∧ c.toNat ≤ 102) ∨
      (65 ≤ c.toNat ∧ c.toNat ≤ 70)) : is_hex_digit c = true := by
  have hc := char_eq_ofNat c
  generalize c.toNat = n at hc h
  subst hc
  rcases h with ⟨h1, h2⟩ | ⟨h1, h2⟩ | ⟨h1, h2⟩ <;> interval_cases n <;> decide

theorem hex_nibble_none (c : Char) (h : is_hex_digit c = false) : hex_nibble c = none := by
  have e0 : '0'.toNat = 48 := by decide
  have e9 : '9'.toNat = 57 := by decide
  have ea : 'a'.toNat = 97 := by decide
  have ef : 'f'.toNat = 102 := by decide
  have eA : 'A'.toNat = 65 := by decide
  have eF : 'F'.toNat = 70 := by decide
  have hr : ¬ ((48 ≤ c.toNat ∧ c.toNat ≤ 57) ∨ (97 ≤ c.toNat ∧ c.toNat ≤ 102) ∨
      (65 ≤ c.toNat ∧ c.toNat ≤ 70)) := by
    intro hr
    rw [is_hex_digit_of_range c hr] at h
    exact absurd h (by decide)
  unfold hex_nibble
  simp only [char_le_iff, e0, e9, ea, ef, eA, eF]
  rw [if_neg (by omega), if_neg (by omega), if_neg (by omega)]

theorem hex_nibble_eq (c : Char) :
    hex_nibble c = if is_hex_digit c = true then some (hex_digit_value c) else none := by
  by_cases h : is_hex_digit c = true
  · rw [if_pos h, (hex_nibble_of_digit c h).1]
  · rw [if_neg h, hex_nibble_none c (by simpa using h)]


/-! ## Single tokens and failing parses -/
theorem strtok_all_single (tok : List Char) (hne : tok ≠ []) (hc : ∀ c ∈ tok, c ≠ ',') :
    strtok_all tok = [tok] := by
  have h := strtok_all_intercalate [tok] (by
    intro t ht
    rw [List.mem_singleton] at ht
    rw [ht]; exact ⟨hne, hc⟩)
  rwa [intercalate_single] at h

theorem parse_core_list_number (ds : List Char) (hne : ds ≠ [])
    (hd : ∀ c ∈ ds, is_dec_digit c = true) (hv : dec_value ds < 2 ^ 31) (fuel : Nat)
    (m : cpumask_t) :
    parse_core_list fuel ds m = some (0, cpumask_set_core m (dec_value ds : Int)) := by
  have hnd : ¬ ('-' ∈ ds) := fun hmem => (dec_digit_facts _ (hd _ hmem)).2.2.2.1 rfl
  rw [parse_core_list, strtok_all_single ds hne (fun c hc => (dec_digit_facts c (hd c hc)).2.2.2.2.2)]
  simp only [parse_tokens, parse_token, dropWhile_isspace_digits ds hd]
  rw [if_neg hnd, atoi_digits ds hd hv]

theorem wrap32_range (x : Int) : -(2 ^ 31) ≤ wrap32 x ∧ wrap32 x ≤ 2 ^ 31 - 1 := by
  unfold wrap32; omega

/-- With `end = INT_MAX` the test `i <= end` holds for every `int`, so the
range loop never leaves: no amount of fuel gives a result. -/
theorem range_loop_int_max (fuel : Nat) (m : cpumask_t) (i : Int) (hi : i ≤ 2 ^ 31 - 1) :
    range_loop fuel m i (2 ^ 31 - 1) = none := by
  induction fuel generalizing m i with
  | zero => rfl
  | succ f ih =>
    rw [range_loop, if_pos hi]
    exact ih _ _ (wrap32_range _).2

/-- Below `INT_MAX` the range loop makes exactly `end - start + 1` calls: with
more fuel than that it returns the mask after `cpumask_set_core` on `start`,
`start + 1`, ..., `end` in this order, with less it is still running. -/
theorem range_loop_exact (n : Nat) :
    ∀ (fuel : Nat) (m : cpumask_t) (i e : Int), e + 1 - i = (n : Int) → -(2 ^ 31) ≤ i →
      e < 2 ^ 31 - 1 →
      range_loop fuel m i e =
        if n < fuel then some (((List.range n).map (fun k : Nat => i + (k : Int))).foldl
          cpumask_set_core m)
        else none := by
  induction n with
  | zero =>
    intro fuel m i e hn _ _
    cases fuel with
    | zero => rfl
    | succ f =>
      rw [range_loop, if_neg (by omega), if_pos (by omega)]
      rfl
  | succ n ih =>
    intro fuel m i e hn hi he
    cases fuel with
    | zero => rfl
    | succ f =>
      rw [range_loop, if_pos (by omega), wrap32_id (i + 1) (by omega) (by omega),
        ih f (cpumask_set_core m i) (i + 1) e (by omega) (by omega) he]
      have hl : (List.range (n + 1)).map (fun k : Nat => i + (k : Int)) =
          i :: (List.range n).map (fun k : Nat => i + 1 + (k : Int)) := by
        rw [List.range_succ_eq_map, List.map_cons, List.map_map]
        simp only [Nat.cast_zero, add_zero, List.cons.injEq, true_and]
        apply List.map_congr_left
        intro k _
        simp only [Function.comp, Nat.succ_eq_add_one, Nat.cast_add, Nat.cast_one]
        ring
      rw [hl, List.foldl_cons]
      by_cases hf : n < f
      · rw [if_pos hf, if_pos (by omega)]
      · rw [if_neg hf, if_neg (by omega)]

/-- A token with a dash whose parsed start exceeds its parsed end makes the
loop body return `-1` and leaves the mask as it is. -/
theorem parse_token_invalid_range (fuel : Nat) (token : List Char) (m : cpumask_t)
    (hdash : '-' ∈ token.dropWhile isspace)
    (hgt : atoi ((token.dropWhile isspace).takeWhile (· ≠ '-')) >
      atoi (((token.dropWhile isspace).dropWhile (· ≠ '-')).drop 1)) :
    parse_token fuel token m = some (true, m) := by
  unfold parse_token
  simp only []
  rw [if_pos hdash, if_pos hgt]

/-- Once the tokens before it have been parsed to the end (return value `0`,
mask `m'`), a range token whose start exceeds its end makes `parse_core_list`
return `-1` with the mask `m'`: no later token is looked at. -/
theorem parse_tokens_aborts_at_invalid_range (fuel : Nat) (pre : List (List Char))
    (bad : List Char) (post : List (List Char)) (m m' : cpumask_t)
    (hpre : parse_tokens fuel pre m = some (0, m'))
    (hbad : parse_token fuel bad m' = some (true, m')) :
    parse_tokens fuel (pre ++ bad :: post) m = some (-1, m') := by
  induction pre generalizing m with
  | nil =>
    have : m = m' := by
      have := Option.some.inj hpre
      exact (Prod.mk.inj this).2
    subst this
    rw [List.nil_append, parse_tokens, hbad]
  | cons t ts ih =>
    rw [List.cons_append, parse_tokens]
    rw [parse_tokens] at hpre
    cases hp : parse_token fuel t m with
    | none => rw [hp] at hpre; exact absurd hpre (by simp)
    | some p =>
      obtain ⟨b, m1⟩ := p
      rw [hp] at hpre
      cases b with
      | true =>
        have := Option.some.inj hpre
        exact absurd (Prod.mk.inj this).1 (by decide)
      | false => exact ih m1 hpre

/-- C12. The text `1023` parses to return `0` with exactly index `1023` set and
`max_core = 1023`; for every `n` with `1024 ≤ n < 2 ^ 31` the decimal text of
`n` parses to return `0` and leaves the mask as initialised: all words zero and
`max_core = -1`. No range loop runs, so any fuel will do. -/
theorem parse_core_list_capacity_boundary (fuel n : Nat) (h1 : 1024 ≤ n) (h2 : n < 2 ^ 31) :
    parse_core_list fuel "1023".toList cpumask_init = some (0, run_set_core [1023]) ∧
    (∀ c : Int, cpumask_is_set (run_set_core [1023]) c = true ↔ c = 1023) ∧
    (run_set_core [1023]).max_core = 1023 ∧
    parse_core_list fuel (Nat.repr n).toList cpumask_init = some (0, cpumask_init) ∧
    (∀ w ∈ cpumask_init.mask, w = 0) ∧ cpumask_init.max_core = -1 := by
  refine ⟨?_, ?_, by decide, ?_, ?_, rfl⟩
  · have := parse_core_list_number "1023".toList (by decide) (by decide) (by decide) fuel
      cpumask_init
    rw [this]
    rfl
  · intro c
    rw [is_set_run_set_core]
    simp only [List.mem_singleton]
    constructor
    · exact fun h => h.1
    · intro h; subst h; exact ⟨rfl, by decide, by decide⟩
  · rw [repr_toList]
    have hv : dec_value (Nat.toDigits 10 n) < 2 ^ 31 := by rw [dec_value_toDigits]; exact h2
    rw [parse_core_list_number _ (toDigits_ne_nil 10 (by decide) n) (toDigits_dec n) hv,
      dec_value_toDigits, set_core_reject _ _ (Or.inr (by exact_mod_cast h1))]
  · intro w hw
    exact (List.mem_replicate.mp hw).2

theorem parse_core_list_capacity_boundary_witness :
    1024 ≤ 1024 ∧ 1024 < 2 ^ 31 ∧
    parse_core_list 0 "1023".toList cpumask_init = some (0, run_set_core [1023]) ∧
    (∀ c : Int, cpumask_is_set (run_set_core [1023]) c = true ↔ c = 1023) ∧
    (run_set_core [1023]).max_core = 1023 ∧
    parse_core_list 0 (Nat.repr 1024).toList cpumask_init = some (0, cpumask_init) ∧
    (∀ w ∈ cpumask_init.mask, w = 0) ∧ cpumask_init.max_core = -1 :=
  ⟨by decide, by decide, parse_core_list_capacity_boundary 0 1024 (by decide) (by decide)⟩

/-- C20 (the code at the failing input): for `start = 0` and `end = 2147483647`
the range loop of `parse_core_list` does not terminate, whatever the fuel, and
so does the whole call on the core list `0-2147483647`. -/
theorem range_loop_never_ends_at_int_max (fuel : Nat) :
    range_loop fuel cpumask_init 0 2147483647 = none ∧
    parse_core_list fuel "0-2147483647".toList cpumask_init = none := by
  have h := range_loop_int_max fuel cpumask_init 0 (by decide)
  have e : (2 : Int) ^ 31 - 1 = 2147483647 := by norm_num
  rw [e] at h
  refine ⟨h, ?_⟩
  have ht : parse_token fuel "0-2147483647".toList cpumask_init =
      (range_loop fuel cpumask_init 0 2147483647).map (fun m => (false, m)) := rfl
  have hs : strtok_all "0-2147483647".toList = ["0-2147483647".toList] := by decide
  rw [parse_core_list, hs, parse_tokens, ht, h]
  rfl

/-- C11 (the code at the failing input): on `0-2147483647,5-3` the first range
loop never ends, so the invalid range `5-3` is never reached and no `-1` is
returned, whatever the fuel. -/
theorem parse_core_list_hangs_before_invalid_range (fuel : Nat) :
    strtok_all "0-2147483647,5-3".toList = ["0-2147483647".toList, "5-3".toList] ∧
    parse_token fuel "5-3".toList cpumask_init = some (true, cpumask_init) ∧
    parse_core_list fuel "0-2147483647,5-3".toList cpumask_init = none := by
  have h := range_loop_int_max fuel cpumask_init 0 (by decide)
  have e : (2 : Int) ^ 31 - 1 = 2147483647 := by norm_num
  rw [e] at h
  have ht : parse_token fuel "0-2147483647".toList cpumask_init =
      (range_loop fuel cpumask_init 0 2147483647).map (fun m => (false, m)) := rfl
  have hs : strtok_all "0-2147483647,5-3".toList = ["0-2147483647".toList, "5-3".toList] := by
    decide
  refine ⟨hs, rfl, ?_⟩
  rw [parse_core_list, hs, parse_tokens, ht, h]
  rfl


/-! ## `main` -/

theorem parse_args_items (argv0 : List Char) (items : List cli_item)
    (hv : ∀ it ∈ items, it.valid) (tail : List (List Char))
    (ht : tail = [] ∨ ∃ f, tail = [f] ∧
      (f = "-c".toList ∨ f = "--cores".toList ∨ f = "-m".toList ∨ f = "--mask".toList))
    (st : cli_args) :
    (∃ out, parse_args argv0 (items.flatMap cli_item.words ++ tail) st = .error out ∧
      (out = [] ∨ out = print_usage argv0)) ∨
    (∃ st', parse_args argv0 (items.flatMap cli_item.words ++ tail) st = .ok st' ∧
      st'.show_help = st.show_help ∧
      ((st.core_list ≠ none ∨ ∃ it ∈ items, it.is_cores = true) → st'.core_list ≠ none) ∧
      ((st.hex_mask ≠ none ∨ ∃ it ∈ items, it.is_mask = true) → st'.hex_mask ≠ none)) := by
  induction items generalizing st with
  | nil =>
    rcases ht with rfl | ⟨f, rfl, hf⟩
    · right
      refine ⟨st, rfl, rfl, ?_, ?_⟩
      · rintro (h | ⟨it, hit, -⟩)
        · exact h
        · exact absurd hit (List.not_mem_nil _)
      · rintro (h | ⟨it, hit, -⟩)
        · exact h
        · exact absurd hit (List.not_mem_nil _)
    · left
      refine ⟨[], ?_, Or.inl rfl⟩
      rcases hf with rfl | rfl | rfl | rfl <;> rfl
  | cons it rest ih =>
    have hrest : ∀ x ∈ rest, x.valid := fun x hx => hv x (List.mem_cons_of_mem _ hx)
    have hit := hv it (List.mem_cons_self _ _)
    have e : (it :: rest).flatMap cli_item.words ++ tail =
        it.words ++ (rest.flatMap cli_item.words ++ tail) := by
      rw [List.flatMap_cons, List.append_assoc]
    rw [e]
    cases it with
    | cores flag arg =>
      have hstep : parse_args argv0 ([flag, arg] ++ (rest.flatMap cli_item.words ++ tail)) st =
          parse_args argv0 (rest.flatMap cli_item.words ++ tail) { st with core_list := some arg } := by
        show parse_args argv0 (flag :: arg :: (rest.flatMap cli_item.words ++ tail)) st = _
        have hit' : flag = "-c".toList ∨ flag = "--cores".toList := hit
        rw [parse_args, if_pos hit']
      rw [cli_item.words, hstep]
      rcases ih hrest { st with core_list := some arg } with h | ⟨st', h1, h2, h3, h4⟩
      · exact Or.inl h
      · right
        refine ⟨st', h1, h2, fun _ => h3 (Or.inl (by simp)), ?_⟩
        rintro (h | ⟨x, hx, hxm⟩)
        · exact h4 (Or.inl h)
        · rcases List.mem_cons.mp hx with rfl | hx
          · exact absurd hxm (by simp [cli_item.is_mask])
          · exact h4 (Or.inr ⟨x, hx, hxm⟩)
    | mask flag arg =>
      have hnc : ¬ (flag = "-c".toList ∨ flag = "--cores".toList) := by
        rcases hit with rfl | rfl <;> decide
      have hstep : parse_args argv0 ([flag, arg] ++ (rest.flatMap cli_item.words ++ tail)) st =
          parse_args argv0 (rest.flatMap cli_item.words ++ tail) { st with hex_mask := some arg } := by
        show parse_args argv0 (flag :: arg :: (rest.flatMap cli_item.words ++ tail)) st = _
        have hit' : flag = "-m".toList ∨ flag = "--mask".toList := hit
        rw [parse_args, if_neg hnc, if_pos hit']
      rw [cli_item.words, hstep]
      rcases ih hrest { st with hex_mask := some arg } with h | ⟨st', h1, h2, h3, h4⟩
      · exact Or.inl h
      · right
        refine ⟨st', h1, h2, ?_, fun _ => h4 (Or.inl (by simp))⟩
        rintro (h | ⟨x, hx, hxm⟩)
        · exact h3 (Or.inl h)
        · rcases List.mem_cons.mp hx with rfl | hx
          · exact absurd hxm (by simp [cli_item.is_cores])
          · exact h3 (Or.inr ⟨x, hx, hxm⟩)
    | verbose flag =>
      have hnc : ¬ (flag = "-c".toList ∨ flag = "--cores".toList) := by
        rcases hit with rfl | rfl <;> decide
      have hnm : ¬ (flag = "-m".toList ∨ flag = "--mask".toList) := by
        rcases hit with rfl | rfl <;> decide
      have hstep : parse_args argv0 ([flag] ++ (rest.flatMap cli_item.words ++ tail)) st =
          parse_args argv0 (rest.flatMap cli_item.words ++ tail) { st with verbose := true } := by
        show parse_args argv0 (flag :: (rest.flatMap cli_item.words ++ tail)) st = _
        have hit' : flag = "-v".toList ∨ flag = "--verbose".toList := hit
        cases hl : rest.flatMap cli_item.words ++ tail with
        | nil => simp only [parse_args, if_neg hnc, if_neg hnm, if_pos hit']
        | cons v r => rw [parse_args, if_neg hnc, if_neg hnm, if_pos hit']
      rw [cli_item.words, hstep]
      rcases ih hrest { st with verbose := true } with h | ⟨st', h1, h2, h3, h4⟩
      · exact Or.inl h
      · right
        refine ⟨st', h1, h2, ?_, ?_⟩
        · rintro (h | ⟨x, hx, hxm⟩)
          · exact h3 (Or.inl h)
          · rcases List.mem_cons.mp hx with rfl | hx
            · exact absurd hxm (by simp [cli_item.is_cores])
            · exact h3 (Or.inr ⟨x, hx, hxm⟩)
        · rintro (h | ⟨x, hx, hxm⟩)
          · exact h4 (Or.inl h)
          · rcases List.mem_cons.mp hx with rfl | hx
            · exact absurd hxm (by simp [cli_item.is_mask])
            · exact h4 (Or.inr ⟨x, hx, hxm⟩)
    | other word =>
      have hk : word ∉ known_flags := hit
      simp only [known_flags, List.mem_cons, List.mem_singleton, List.not_mem_nil, or_false,
        not_or] at hk
      obtain ⟨k1, k2, k3, k4, k5, k6, k7, k8⟩ := hk
      left
      refine ⟨print_usage argv0, ?_, Or.inr rfl⟩
      show parse_args argv0 (word :: (rest.flatMap cli_item.words ++ tail)) st = _
      cases hl : rest.flatMap cli_item.words ++ tail with
      | nil =>
        have n1 : ¬ (word = "-c".toList ∨ word = "--cores".toList) := by tauto
        have n2 : ¬ (word = "-m".toList ∨ word = "--mask".toList) := by tauto
        have n3 : ¬ (word = "-v".toList ∨ word = "--verbose".toList) := by tauto
        have n4 : ¬ (word = "-h".toList ∨ word = "--help".toList) := by tauto
        simp only [parse_args, if_neg n1, if_neg n2, if_neg n3, if_neg n4]
      | cons v r =>
        rw [parse_args, if_neg (by tauto), if_neg (by tauto), if_neg (by tauto),
          if_neg (by tauto)]

/-- C16. For every argument vector made of cores options, mask options (each
with its argument), verbose flags and other words (no help flag), possibly
ending in a `-c`/`-m` that lacks its argument, with at least one cores option
and one mask option: `main` returns exit code `1`, calls neither parser, and
writes to standard output nothing or (after an unknown option) the usage text,
so none of the result lines. -/
theorem main_rejects_cores_and_mask (fuel : Nat) (argv0 : List Char) (items : List cli_item)
    (tail : List (List Char)) (hv : ∀ it ∈ items, it.valid)
    (ht : tail = [] ∨ ∃ f, tail = [f] ∧
      (f = "-c".toList ∨ f = "--cores".toList ∨ f = "-m".toList ∨ f = "--mask".toList))
    (hc : ∃ it ∈ items, it.is_cores = true) (hm : ∃ it ∈ items, it.is_mask = true) :
    ∃ r, main fuel argv0 (items.flatMap cli_item.words ++ tail) = some r ∧ r.exit_code = 1 ∧
      r.parser_calls = 0 ∧ (r.stdout = [] ∨ r.stdout = print_usage argv0) := by
  unfold main
  rcases parse_args_items argv0 items hv tail ht
      { core_list := none, hex_mask := none, verbose := false, show_help := false } with
    ⟨out, h1, h2⟩ | ⟨st', h1, h2, h3, h4⟩
  · rw [h1]
    exact ⟨_, rfl, rfl, rfl, h2⟩
  · rw [h1]
    have hcl := h3 (Or.inr hc)
    have hhm := h4 (Or.inr hm)
    have hsh : st'.show_help = false := h2
    simp only []
    rw [if_neg (by rw [hsh]; simp [hcl]), if_pos ⟨hcl, hhm⟩]
    exact ⟨_, rfl, rfl, rfl, Or.inl rfl⟩

theorem main_rejects_cores_and_mask_witness :
    (∀ it ∈ [cli_item.verbose "-v".toList, cli_item.cores "--cores".toList "0-3".toList,
        cli_item.mask "-m".toList "0xff".toList], it.valid) ∧
    (([] : List (List Char)) = [] ∨ ∃ f, ([] : List (List Char)) = [f] ∧
      (f = "-c".toList ∨ f = "--cores".toList ∨ f = "-m".toList ∨ f = "--mask".toList)) ∧
    (∃ it ∈ [cli_item.verbose "-v".toList, cli_item.cores "--cores".toList "0-3".toList,
        cli_item.mask "-m".toList "0xff".toList], it.is_cores = true) ∧
    (∃ it ∈ [cli_item.verbose "-v".toList, cli_item.cores "--cores".toList "0-3".toList,
        cli_item.mask "-m".toList "0xff".toList], it.is_mask = true) ∧
    [cli_item.verbose "-v".toList, cli_item.cores "--cores".toList "0-3".toList,
        cli_item.mask "-m".toList "0xff".toList].flatMap cli_item.words ++ [] =
      ["-v".toList, "--cores".toList, "0-3".toList, "-m".toList, "0xff".toList] ∧
    ∃ r, main 0 "cpumask_tool".toList
        ([cli_item.verbose "-v".toList, cli_item.cores "--cores".toList "0-3".toList,
          cli_item.mask "-m".toList "0xff".toList].flatMap cli_item.words ++ []) = some r ∧
      r.exit_code = 1 ∧ r.parser_calls = 0 ∧
      (r.stdout = [] ∨ r.stdout = print_usage "cpumask_tool".toList) :=
  have hv : ∀ it ∈ [cli_item.verbose "-v".toList, cli_item.cores "--cores".toList "0-3".toList,
      cli_item.mask "-m".toList "0xff".toList], it.valid := by
    intro it hit
    simp only [List.mem_cons, List.mem_singleton, List.not_mem_nil, or_false] at hit
    rcases hit with rfl | rfl | rfl
    · exact Or.inl rfl
    · exact Or.inr rfl
    · exact Or.inl rfl
  ⟨hv, Or.inl rfl, ⟨_, List.mem_cons_of_mem _ (List.mem_cons_self _ _), rfl⟩,
    ⟨_, List.mem_cons_of_mem _ (List.mem_cons_of_mem _ (List.mem_cons_self _ _)), rfl⟩, rfl,
    main_rejects_cores_and_mask 0 "cpumask_tool".toList _ [] hv (Or.inl rfl)
      ⟨_, List.mem_cons_of_mem _ (List.mem_cons_self _ _), rfl⟩
      ⟨_, List.mem_cons_of_mem _ (List.mem_cons_of_mem _ (List.mem_cons_self _ _)), rfl⟩⟩


/-! ## Failing and round-trip cases of `parse_hex_mask` -/

theorem hex_loop_code (rev : List Char) (bp : Nat) (m : cpumask_t) :
    (hex_loop rev bp m).1 = 0 ∨ (hex_loop rev bp m).1 = -1 := by
  induction rev generalizing bp m with
  | nil => exact Or.inl rfl
  | cons c rest ih =>
    simp only [hex_loop]
    split
    · split
      · exact Or.inr rfl
      · exact ih _ _
    · exact Or.inl rfl

/-- The loop of `parse_hex_mask` returns `-1` exactly when one of the
characters it reaches, those at bit positions below `MAX_CORES`, is not a
hexadecimal digit. -/
theorem hex_loop_fails_iff (rev : List Char) (bp : Nat) (m : cpumask_t) :
    (hex_loop rev bp m).1 = -1 ↔
      ∃ c ∈ rev.take ((1024 - bp + 3) / 4), is_hex_digit c = false := by
  induction rev generalizing bp m with
  | nil => simp [hex_loop]
  | cons c rest ih =>
    simp only [hex_loop, MAX_CORES]
    by_cases hlt : bp < 1024
    · rw [if_pos hlt]
      have hN : (1024 - bp + 3) / 4 = (1024 - (bp + 4) + 3) / 4 + 1 := by omega
      rw [hN, List.take_succ_cons, hex_nibble_eq]
      by_cases hc : is_hex_digit c = true
      · rw [if_pos hc]
        simp only []
        rw [ih]
        constructor
        · rintro ⟨x, hx, hxd⟩
          exact ⟨x, List.mem_cons_of_mem _ hx, hxd⟩
        · rintro ⟨x, hx, hxd⟩
          rcases List.mem_cons.mp hx with rfl | hx
          · rw [hc] at hxd; exact absurd hxd (by decide)
          · exact ⟨x, hx, hxd⟩
      · rw [if_neg hc]
        simp only [true_iff]
        exact ⟨c, List.mem_cons_self _ _, by simpa using hc⟩
    · rw [if_neg hlt]
      have hN : (1024 - bp + 3) / 4 = 0 := by omega
      rw [hN]
      simp

theorem hex_value_lt (ds : List Char) (hd : ∀ c ∈ ds, is_hex_digit c = true) :
    hex_value ds < 16 ^ ds.length := by
  induction ds using List.reverseRecOn with
  | nil => decide
  | append_singleton xs x ih =>
    have hx := (hex_nibble_of_digit x (hd x (by simp))).2
    have hxs := ih (fun c hc => hd c (by simp [hc]))
    rw [hex_value_append, List.length_append, List.length_singleton, pow_succ]
    omega

/-- The loop of `parse_hex_mask` over digits followed by a character that is no
digit, all within the capacity: it returns `-1` with the bits of the digits set. -/
theorem hex_loop_stops (ds : List Char) (bad : Char) (rest : List Char) (bp : Nat)
    (m : cpumask_t) (hm : m.mask.length = 16) (hd : ∀ c ∈ ds, is_hex_digit c = true)
    (hbad : is_hex_digit bad = false) (hcap : bp + 4 * ds.length < 1024) :
    (hex_loop (ds ++ bad :: rest) bp m).1 = -1 ∧
    ∀ i : Int, cpumask_is_set (hex_loop (ds ++ bad :: rest) bp m).2 i =
      (cpumask_is_set m i ||
        (decide (0 ≤ i ∧ i < 1024 ∧ (bp : Int) ≤ i) &&
          (hex_value ds.reverse).testBit (i.toNat - bp))) := by
  induction ds generalizing bp m with
  | nil =>
    have hb : bp < 1024 := by simpa using hcap
    simp only [List.nil_append, hex_loop, MAX_CORES]
    rw [if_pos hb, hex_nibble_none bad hbad]
    refine ⟨rfl, ?_⟩
    intro i
    simp [hex_value]
  | cons c cs ih =>
    obtain ⟨hnib, hlt16⟩ := hex_nibble_of_digit c (hd c (List.mem_cons_self _ _))
    have hb : bp < 1024 := by
      simp only [List.length_cons] at hcap; omega
    have e : hex_loop ((c :: cs) ++ bad :: rest) bp m =
        hex_loop (cs ++ bad :: rest) (bp + 4) (nibble_loop (hex_digit_value c) bp 4 0 m) := by
      show hex_loop (c :: (cs ++ bad :: rest)) bp m = _
      rw [hex_loop, if_pos (show bp < MAX_CORES from hb), hnib]
    rw [e]
    have hm1 : (nibble_loop (hex_digit_value c) bp 4 0 m).mask.length = 16 := by
      rw [nibble_loop_length]; exact hm
    obtain ⟨r1, r3⟩ := ih (bp + 4) _ hm1 (fun x hx => hd x (List.mem_cons_of_mem _ hx))
      (by simp only [List.length_cons] at hcap; omega)
    refine ⟨r1, ?_⟩
    intro i
    rw [r3, is_set_nibble_loop _ _ _ _ _ _ hm, List.reverse_cons, hex_value_append]
    have htb := Nat.testBit_mul_pow_two_add (hex_value cs.reverse) (i := 4)
      (b := hex_digit_value c) (by simpa using hlt16) (i.toNat - bp)
    rw [show (2:Nat) ^ 4 = 16 from rfl] at htb
    rw [htb]
    rw [Bool.eq_iff_iff]
    simp only [Bool.or_eq_true, Bool.and_eq_true, decide_eq_true_eq]
    by_cases hi : i.toNat - bp < 4
    · rw [if_pos hi]
      constructor
      · rintro ((h1 | ⟨h1, h2⟩) | ⟨h1, h2⟩)
        · exact Or.inl h1
        · exact Or.inr ⟨by omega, h2⟩
        · omega
      · rintro (h1 | ⟨h1, h2⟩)
        · exact Or.inl (Or.inl h1)
        · exact Or.inl (Or.inr ⟨by omega, h2⟩)
    · rw [if_neg hi]
      have he : i.toNat - (bp + 4) = i.toNat - bp - 4 := by omega
      rw [he]
      constructor
      · rintro ((h1 | ⟨h1, h2⟩) | ⟨h1, h2⟩)
        · exact Or.inl h1
        · omega
        · exact Or.inr ⟨by omega, h2⟩
      · rintro (h1 | ⟨h1, h2⟩)
        · exact Or.inl (Or.inl h1)
        · exact Or.inr ⟨by omega, h2⟩

theorem lower_is_hex_digit : ∀ c ∈ "0123456789abcdef".toList, is_hex_digit c = true := by
  decide

/-- The newline that ends the output of `print_hex_mask` is no hexadecimal
digit: with it the printed text `0x0` is refused. -/
theorem parse_hex_mask_refuses_newline :
    (parse_hex_mask ("0x0".toList ++ ['\n']) cpumask_init).1 = -1 := by
  decide

/-- The text `print_hex_mask` writes ends in a newline, which is no hexadecimal
digit and stands among the last 256 characters: `parse_hex_mask` refuses it. -/
theorem parse_hex_mask_printed_with_newline (body : List Char) (m : cpumask_t) :
    (parse_hex_mask (['0', 'x'] ++ body ++ ['\n']) m).1 = -1 := by
  have hskip : skip_0x (['0', 'x'] ++ body ++ ['\n']) = body ++ ['\n'] := rfl
  unfold parse_hex_mask
  simp only [hskip]
  rw [if_neg (by simp), hex_loop_fails_iff, List.reverse_append, List.reverse_singleton,
    List.singleton_append]
  exact ⟨'\n', by simp, by decide⟩

/-- C13 (as stated, refuted): a string of 257 characters whose first one is `g`
and the others `0` contains a character that is no hexadecimal digit, yet
`parse_hex_mask` returns `0`: the loop stops after 256 characters. -/
theorem parse_hex_mask_ignores_far_left :
    is_hex_digit 'g' = false ∧
    (parse_hex_mask ('g' :: List.replicate 256 '0') cpumask_init).1 = 0 := by
  set_option maxRecDepth 1000000 in decide

/-- C13 (amended): `parse_hex_mask` returns `-1` exactly when, after removing
one optional leading `0x` or `0X`, the remaining string is empty or one of its
last 256 characters is not a hexadecimal digit, and returns `0` otherwise; in
particular `0xg`, `0x` and the empty string fail. -/
theorem parse_hex_mask_fails_iff (hex_str : List Char) (m : cpumask_t) :
    ((parse_hex_mask hex_str m).1 = -1 ↔
      (skip_0x hex_str = [] ∨
        ∃ c ∈ (skip_0x hex_str).reverse.take 256, is_hex_digit c = false)) ∧
    ((parse_hex_mask hex_str m).1 = 0 ∨ (parse_hex_mask hex_str m).1 = -1) ∧
    (parse_hex_mask "0xg".toList m).1 = -1 ∧ (parse_hex_mask "0x".toList m).1 = -1 ∧
    (parse_hex_mask "".toList m).1 = -1 := by
  refine ⟨?_, ?_, rfl, rfl, rfl⟩
  · unfold parse_hex_mask
    simp only []
    by_cases he : skip_0x hex_str = []
    · rw [if_pos (by rw [he]; rfl)]
      simp [he]
    · rw [if_neg (by simpa using he), hex_loop_fails_iff]
      constructor
      · exact fun h => Or.inr h
      · rintro (h | h)
        · exact absurd h he
        · exact h
  · unfold parse_hex_mask
    simp only []
    split
    · exact Or.inr rfl
    · exact hex_loop_code _ _ _

/-- C17. When the string left after the optional prefix has at most 256
characters and its rightmost character that is no hexadecimal digit is `bad`,
followed by the digits `suf`: the call on a fresh mask returns `-1` and the set
indices are exactly the bits of the number `suf` denotes (none when `suf` is
empty); the bits stay set, the mask is not put back to its initial state. -/
theorem parse_hex_mask_partial_mutation (hex_str pre suf : List Char) (bad : Char)
    (hs : skip_0x hex_str = pre ++ bad :: suf) (hlen : (skip_0x hex_str).length ≤ 256)
    (hbad : is_hex_digit bad = false) (hd : ∀ c ∈ suf, is_hex_digit c = true) :
    (parse_hex_mask hex_str cpumask_init).1 = -1 ∧
    (∀ i : Int, cpumask_is_set (parse_hex_mask hex_str cpumask_init).2 i = true ↔
      (0 ≤ i ∧ (hex_value suf).testBit i.toNat = true)) ∧
    (suf = [] → ∀ i : Int, cpumask_is_set (parse_hex_mask hex_str cpumask_init).2 i = false) ∧
    (hex_value suf ≠ 0 → (parse_hex_mask hex_str cpumask_init).2 ≠ cpumask_init) := by
  have hrev : (skip_0x hex_str).reverse = suf.reverse ++ bad :: pre.reverse := by
    rw [hs]; simp
  have hcap : 0 + 4 * suf.reverse.length < 1024 := by
    rw [hs] at hlen
    simp only [List.length_append, List.length_cons, List.length_reverse] at hlen ⊢
    omega
  obtain ⟨h1, h2⟩ := hex_loop_stops suf.reverse bad pre.reverse 0 cpumask_init
    storage_ok_init.1 (fun c hc => hd c (List.mem_reverse.mp hc)) hbad hcap
  have hpm : parse_hex_mask hex_str cpumask_init =
      hex_loop (suf.reverse ++ bad :: pre.reverse) 0 cpumask_init := by
    unfold parse_hex_mask
    simp only []
    rw [if_neg (by rw [hs]; simp), hrev]
  have hbits : ∀ i : Int, cpumask_is_set (parse_hex_mask hex_str cpumask_init).2 i = true ↔
      (0 ≤ i ∧ (hex_value suf).testBit i.toNat = true) := by
    intro i
    rw [hpm, h2, is_set_init, List.reverse_reverse]
    simp only [Bool.false_or, Bool.and_eq_true, decide_eq_true_eq, Nat.cast_zero, Nat.sub_zero]
    constructor
    · exact fun h => ⟨h.1.1, h.2⟩
    · rintro ⟨h0, hb⟩
      refine ⟨⟨h0, ?_, h0⟩, hb⟩
      by_contra hge
      have hlt := hex_value_lt suf hd
      have hpow : (16 : Nat) ^ suf.length ≤ 2 ^ i.toNat := by
        rw [show (16 : Nat) = 2 ^ 4 from rfl, ← pow_mul]
        apply Nat.pow_le_pow_right (by decide)
        simp only [List.length_reverse] at hcap
        omega
      rw [Nat.testBit_lt_two_pow (lt_of_lt_of_le hlt hpow)] at hb
      exact absurd hb (by decide)
  refine ⟨by rw [hpm]; exact h1, hbits, ?_, ?_⟩
  · intro he i
    cases hset : cpumask_is_set (parse_hex_mask hex_str cpumask_init).2 i
    · rfl
    · have := ((hbits i).mp hset).2
      rw [he] at this
      simp [hex_value] at this
  · intro hne heq
    obtain ⟨b, hb⟩ := Nat.ne_zero_implies_bit_true hne
    have := (hbits (b : Int)).mpr ⟨by omega, by simpa using hb⟩
    rw [heq, is_set_init] at this
    exact absurd this (by decide)

theorem parse_hex_mask_partial_mutation_witness :
    skip_0x "0x3g5".toList = ['3'] ++ 'g' :: ['5'] ∧ (skip_0x "0x3g5".toList).length ≤ 256 ∧
    is_hex_digit 'g' = false ∧ (∀ c ∈ ['5'], is_hex_digit c = true) ∧
    (parse_hex_mask "0x3g5".toList cpumask_init).2 = run_set_core [0, 2] ∧
    (parse_hex_mask "0x3g5".toList cpumask_init).1 = -1 ∧
    (∀ i : Int, cpumask_is_set (parse_hex_mask "0x3g5".toList cpumask_init).2 i = true ↔
      (0 ≤ i ∧ (hex_value ['5']).testBit i.toNat = true)) ∧
    (['5'] = [] →
      ∀ i : Int, cpumask_is_set (parse_hex_mask "0x3g5".toList cpumask_init).2 i = false) ∧
    (hex_value ['5'] ≠ 0 → (parse_hex_mask "0x3g5".toList cpumask_init).2 ≠ cpumask_init) :=
  ⟨by decide, by decide, by decide, by decide, by decide,
    parse_hex_mask_partial_mutation "0x3g5".toList ['3'] ['5'] 'g' (by decide) (by decide)
      (by decide) (by decide)⟩

/-- C19 (as stated, refuted): for the reachable mask with the indices 4 and 5
`print_hex_mask` writes `0x30` and a newline, and `parse_hex_mask` on exactly
this text returns `-1`; so it does for the text `0x0` and a newline of the
empty mask. -/
theorem parse_hex_mask_rejects_printed_text :
    print_hex_mask (run_set_core [4, 5]) = "0x30".toList ++ ['\n'] ∧
    (parse_hex_mask (print_hex_mask (run_set_core [4, 5])) cpumask_init).1 = -1 ∧
    print_hex_mask (run_set_core []) = "0x0".toList ++ ['\n'] ∧
    (parse_hex_mask (print_hex_mask (run_set_core [])) cpumask_init).1 = -1 := by
  decide

/-- C19 (amended): for every reachable mask `s`, the empty one included, the
text that `print_hex_mask s` writes before its final newline, given to
`parse_hex_mask` on a fresh mask, returns `0` and produces a mask equal to
`s`, words and `max_core` alike; the printed text with its newline is refused
with `-1`. -/
theorem print_then_parse_hex_mask (cores : List Int) :
    ∃ text : List Char, print_hex_mask (run_set_core cores) = text ++ ['\n'] ∧
      (parse_hex_mask text cpumask_init).1 = 0 ∧
      (parse_hex_mask text cpumask_init).2 = run_set_core cores ∧
      (parse_hex_mask text cpumask_init).2.mask = (run_set_core cores).mask ∧
      (parse_hex_mask text cpumask_init).2.max_core = (run_set_core cores).max_core ∧
      (parse_hex_mask (print_hex_mask (run_set_core cores)) cpumask_init).1 = -1 := by
  obtain ⟨hst, hmax⟩ := reachable_inv cores
  obtain ⟨out, ho1, ho2, ho3, ho4⟩ := print_hex_mask_value _ hst hmax
  have hne : out ≠ [] := by
    rcases ho3 with h | h
    · rw [h]; simp
    · exact h.1
  have hd : ∀ c ∈ out, is_hex_digit c = true := fun c hc => lower_is_hex_digit c (ho2 c hc)
  obtain ⟨h1, -, h3⟩ := parse_hex_mask_digits ['0', 'x'] out (Or.inr (Or.inl rfl)) hne hd
    cpumask_init storage_ok_init.1
  have hinv := parse_hex_mask_inv (['0', 'x'] ++ out) cpumask_init ⟨storage_ok_init, max_ok_init⟩
  have heq : (parse_hex_mask (['0', 'x'] ++ out) cpumask_init).2 = run_set_core cores := by
    apply mask_ext _ _ hinv ⟨hst, hmax⟩
    intro i
    rw [h3, is_set_init, Bool.false_or]
    by_cases hi : 0 ≤ i ∧ i < 1024
    · rw [decide_eq_true hi, Bool.true_and, ho4, Int.toNat_of_nonneg hi.1]
    · rw [decide_eq_false hi, Bool.false_and]
      cases hset : cpumask_is_set (run_set_core cores) i
      · rfl
      · exact absurd (is_set_range _ _ hset) hi
  refine ⟨['0', 'x'] ++ out, ho1, h1, heq, by rw [heq], by rw [heq], ?_⟩
  rw [ho1]
  exact parse_hex_mask_printed_with_newline out cpumask_init

/-- C18. For every reachable mask with `max_core ≥ 0` the word at index
`max_core / 64` is not zero; so in `print_hex_mask` the test that skips a zero
topmost word fails, the topmost word is printed, and the loop ends with
`printed` set: the fallback that writes `0` is not taken. -/
theorem top_word_printed (cores : List Int) (s : cpumask_t) (hs : s = run_set_core cores)
    (h0 : 0 ≤ s.max_core) :
    s.mask.getD (s.max_core.toNat / 64) 0 ≠ 0 ∧
    ¬ (s.mask.getD (s.max_core.toNat / 64) 0 = 0 ∧ s.max_core.toNat / 64 > 0) ∧
    print_hex_step s (s.max_core.toNat / 64) (false, ['0', 'x']) (s.max_core.toNat / 64) =
      (true, ['0', 'x'] ++ fmt_llx (s.mask.getD (s.max_core.toNat / 64) 0)) ∧
    ((List.range (s.max_core.toNat / 64 + 1)).reverse.foldl
      (print_hex_step s (s.max_core.toNat / 64)) (false, ['0', 'x'])).1 = true := by
  subst hs
  obtain ⟨-, hmax⟩ := reachable_inv cores
  obtain ⟨-, -, hw⟩ := top_word_ne_zero _ hmax (by omega)
  have hstep : print_hex_step (run_set_core cores) ((run_set_core cores).max_core.toNat / 64)
      (false, ['0', 'x']) ((run_set_core cores).max_core.toNat / 64) =
      (true, ['0', 'x'] ++
        fmt_llx ((run_set_core cores).mask.getD ((run_set_core cores).max_core.toNat / 64) 0)) := by
    unfold print_hex_step
    rw [if_pos rfl]
    simp only []
    rw [if_neg (fun h => hw h.1)]
  refine ⟨hw, fun h => hw h.1, hstep, ?_⟩
  rw [List.range_succ, List.reverse_append, List.reverse_singleton, List.singleton_append,
    List.foldl_cons, hstep, print_hex_lower_words]
  intro w hw'
  rw [List.mem_reverse, List.mem_range] at hw'
  omega

theorem top_word_printed_witness :
    (0 : Int) ≤ (run_set_core [3, 200, 70]).max_core ∧
    (run_set_core [3, 200, 70]).mask.getD ((run_set_core [3, 200, 70]).max_core.toNat / 64) 0 = 256 ∧
    ((List.range ((run_set_core [3, 200, 70]).max_core.toNat / 64 + 1)).reverse.foldl
      (print_hex_step (run_set_core [3, 200, 70]) ((run_set_core [3, 200, 70]).max_core.toNat / 64))
      (false, ['0', 'x'])).1 = true :=
  ⟨by decide, by decide, (top_word_printed [3, 200, 70] _ rfl (by decide)).2.2.2⟩


/-! ## The empty mask against the others -/

theorem mem_intercalate (sep : List Char) (l : List (List Char)) (c : Char)
    (h : c ∈ List.intercalate sep l) : c ∈ sep ∨ ∃ x ∈ l, c ∈ x := by
  induction l with
  | nil => simp [List.intercalate, List.intersperse] at h
  | cons x xs ih =>
    cases xs with
    | nil =>
      rw [intercalate_single] at h
      exact Or.inr ⟨x, List.mem_cons_self _ _, h⟩
    | cons y ys =>
      rw [intercalate_cons_cons, List.mem_append, List.mem_append] at h
      rcases h with (h | h) | h
      · exact Or.inr ⟨x, List.mem_cons_self _ _, h⟩
      · exact Or.inl h
      · rcases ih h with h | ⟨z, hz, hc⟩
        · exact Or.inl h
        · exact Or.inr ⟨z, List.mem_cons_of_mem _ hz, hc⟩

theorem repr_chars (n : Nat) : ∀ c ∈ (Nat.repr n).toList, c ∈ "0123456789,-".toList := by
  intro c hc
  rw [repr_toList] at hc
  have := toDigits_dec n c hc
  simp only [is_dec_digit, List.contains_eq_any_beq, List.any_eq_true, beq_iff_eq] at this
  obtain ⟨x, hx, rfl⟩ := this
  simp only [String.toList, List.mem_cons, List.mem_singleton, List.not_mem_nil, or_false] at hx
  rcases hx with rfl | rfl | rfl | rfl | rfl | rfl | rfl | rfl | rfl | rfl <;> decide

theorem run_text_chars (r : Nat × Nat) : ∀ c ∈ run_text r, c ∈ "0123456789,-".toList := by
  intro c hc
  unfold run_text at hc
  split at hc
  · exact repr_chars _ c hc
  · split at hc
    · rw [List.mem_append, List.mem_append, List.mem_singleton] at hc
      rcases hc with (hc | hc) | hc
      · exact repr_chars _ c hc
      · rw [hc]; decide
      · exact repr_chars _ c hc
    · rw [List.mem_append, List.mem_append, List.mem_singleton] at hc
      rcases hc with (hc | hc) | hc
      · exact repr_chars _ c hc
      · rw [hc]; decide
      · exact repr_chars _ c hc

theorem count_cores_pos (s : cpumask_t) (hmax : max_ok s) (hne : s.max_core ≠ -1) :
    0 < count_cores s := by
  obtain ⟨h0, h1, -⟩ := top_word_ne_zero s hmax hne
  have hset := hmax.1.resolve_left hne
  rw [count_cores_eq_length]
  have hmem : s.max_core.toNat ∈
      (List.range (s.max_core + 1).toNat).filter (fun i : Nat => cpumask_is_set s (i : Int)) := by
    rw [List.mem_filter, List.mem_range, Int.toNat_of_nonneg h0]
    exact ⟨by omega, hset⟩
  have := List.length_pos_of_mem hmem
  exact_mod_cast this

/-- C14. For the fresh mask `print_core_list` writes `(no cores selected)`,
`print_hex_mask` writes `0x0` and `count_cores` is `0`; for every reachable
mask with a member the list text consists of decimal digits, `,` and `-` only
(so it is not the placeholder), the hex text is not `0x0`, and the count is
positive. -/
theorem empty_mask_outputs_are_distinct (cores : List Int) (s : cpumask_t)
    (hs : s = run_set_core cores) (hne : s.max_core ≠ -1) :
    print_core_list cpumask_init = "(no cores selected)".toList ++ ['\n'] ∧
    print_hex_mask cpumask_init = "0x0".toList ++ ['\n'] ∧
    count_cores cpumask_init = 0 ∧
    (∃ text : List Char, print_core_list s = text ++ ['\n'] ∧ text ≠ [] ∧
      ∀ c ∈ text, c ∈ "0123456789,-".toList) ∧
    print_core_list s ≠ "(no cores selected)".toList ++ ['\n'] ∧
    print_hex_mask s ≠ "0x0".toList ++ ['\n'] ∧
    0 < count_cores s := by
  subst hs
  obtain ⟨hst, hmax⟩ := reachable_inv cores
  obtain ⟨runs, -, hrne, hprint⟩ := print_core_list_runs _ hmax hne
  have hchars : ∀ c ∈ List.intercalate [','] (runs.map run_text), c ∈ "0123456789,-".toList := by
    intro c hc
    rcases mem_intercalate _ _ c hc with h | ⟨x, hx, hcx⟩
    · rw [List.mem_singleton] at h
      rw [h]; decide
    · obtain ⟨r, -, rfl⟩ := List.mem_map.mp hx
      exact run_text_chars r c hcx
  have htne : List.intercalate [','] (runs.map run_text) ≠ [] := by
    obtain ⟨r, rs, rfl⟩ := List.exists_cons_of_ne_nil hrne
    have hr : run_text r ≠ [] := by
      unfold run_text
      have := toDigits_ne_nil 10 (by decide) r.1
      split
      · rw [repr_toList]; exact this
      · split <;> simp
    cases rs with
    | nil => rw [List.map_singleton, intercalate_single]; exact hr
    | cons r' rs' =>
      rw [List.map_cons, List.map_cons, intercalate_cons_cons]
      simp
  obtain ⟨h0, h1, hw⟩ := top_word_ne_zero _ hmax hne
  refine ⟨by decide, by decide, by decide, ⟨_, hprint, htne, hchars⟩, ?_, ?_,
    count_cores_pos _ hmax hne⟩
  · rw [hprint]
    intro heq
    have h2 := List.append_cancel_right heq
    have := hchars '(' (by rw [h2]; decide)
    exact absurd this (by decide)
  · rw [print_hex_mask_eq _ h0 hw]
    intro heq
    have h2 : hex_words_text (run_set_core cores) = ['0'] := by
      have := List.append_cancel_right heq
      exact List.append_cancel_left this
    have := hex_words_text_head _ hst hmax hne
    rw [h2] at this
    exact this rfl

theorem empty_mask_outputs_are_distinct_witness :
    (run_set_core [4, 5]).max_core ≠ -1 ∧
    print_core_list (run_set_core [4, 5]) = "4,5".toList ++ ['\n'] ∧
    print_hex_mask (run_set_core [4, 5]) = "0x30".toList ++ ['\n'] ∧
    count_cores (run_set_core [4, 5]) = 2 ∧
    print_core_list (run_set_core [4, 5]) ≠ "(no cores selected)".toList ++ ['\n'] ∧
    print_hex_mask (run_set_core [4, 5]) ≠ "0x0".toList ++ ['\n'] ∧
    0 < count_cores (run_set_core [4, 5]) :=
  ⟨by decide, by decide, by decide, by decide,
    (empty_mask_outputs_are_distinct [4, 5] _ rfl (by decide)).2.2.2.2⟩


end Cpumask
